import Mathlib

/-!
MemorySimulation: contiguous memory allocation (First Fit, Best Fit, Worst Fit)

A shallow embedding of the allocator engine of `MemorySimulation/main.c`:
the block table, the three placement searches, `allocate_memory`,
`deallocate_memory` with its coalescing loop, `coalesce_memory` and
`update_fragmentation_metrics`.

Modelling conventions.
* C `int` values that can be negative (sizes, addresses, ids, `block_index`, the
  results of the searches) are `Int`; array positions and `block_count` are `Nat`.
  Arithmetic is exact: the source's behaviour on signed overflow is undefined and
  is not modelled.  `INT_MIN` and `INT_MAX` are the 32-bit values.  The statements
  about allocation, metrics and reachable states assume that the sums and
  differences the code computes fit an `int` (`InInt`, `AllocateFits`, `MetricsFit`,
  the deallocation steps of `Reachable` and `ReachableValid`), and show that this
  is kept along a run from a memory of at most `INT_MAX - 10` KB.
* `blocks` is the slot array `MemoryBlock blocks[MAX_BLOCKS]`, modelled as a total
  function from slot number to block; the slots `0 .. block_count-1` are the live
  blocks (`liveBlocks`).  Slots past the live range keep whatever was stored there,
  exactly as the C array does.
* The process array is a `List Process`; a `Process *` argument is the list
  together with the position `k` it points at, so that `process[j]` is entry
  `k + j`.  Entries past the end of the list are not touched.
* Every `for` loop with a fixed trip count is a structural recursion on the number
  of remaining iterations.  The two loops whose bound changes while they run (the
  `do ... while (merged)` of `deallocate_memory` and the `for` of `coalesce_memory`)
  take a step budget and return `none` when it runs out; the theorems show that a
  budget above `block_count` is always enough.
* A C `double` is modelled by its rational value.  Every conversion from `int`,
  division and multiplication is rounded once to the nearest IEEE 754 binary64 value,
  ties to even (`roundDouble`); this is the arithmetic of a C implementation that
  evaluates `double` expressions in `double` precision.
-/

namespace MemorySimulation

/-! ## Constants and data model -/

def MAX_BLOCKS : Nat := 100

def MAX_PROCESSES : Nat := 20

def INT_MAX : Int := 2147483647

def INT_MIN : Int := -2147483648

/-- The value fits a C `int`.  The model computes with exact integers; wherever the
source adds or subtracts `int` values, the theorems that depend on the result assume
that the exact value fits, so that the exact result is the `int` result. -/
def InInt (x : Int) : Prop :=
  INT_MIN ≤ x ∧ x ≤ INT_MAX

instance (x : Int) : Decidable (InInt x) := by
  unfold InInt
  infer_instance

inductive AllocationStrategy where
  | FIRST_FIT
  | BEST_FIT
  | WORST_FIT
deriving DecidableEq

inductive ProcessState where
  | PROCESS_NEW
  | PROCESS_RUNNING
  | PROCESS_TERMINATED
deriving DecidableEq

structure MemoryBlock where
  start_address : Int
  size : Int
  is_free : Bool
  process_id : Int
deriving DecidableEq

structure Process where
  id : Int
  size : Int
  state : ProcessState
  block_index : Int
deriving DecidableEq

structure MemoryManager where
  total_size : Int
  free_size : Int
  block_count : Nat
  blocks : Nat → MemoryBlock
  strategy : AllocationStrategy

/-- Slot assignment `blocks[i] = b`. -/
def write (blocks : Nat → MemoryBlock) (i : Nat) (b : MemoryBlock) : Nat → MemoryBlock :=
  fun j => if j = i then b else blocks j

/-- The live part of the block table: slots `0 .. block_count-1`, in order. -/
def liveBlocks (m : MemoryManager) : List MemoryBlock :=
  (List.range m.block_count).map m.blocks

/-- A block table whose first slots hold the given blocks; the remaining slots
hold an arbitrary filler value. -/
def tableOf (bs : List MemoryBlock) : Nat → MemoryBlock :=
  fun i => bs.getD i { start_address := 0, size := 0, is_free := false, process_id := 0 }

/-! ## Placement strategies -/

/-- Loop of `find_first_fit`: `n` iterations remain, `i` is the loop variable. -/
def find_first_fit_loop (m : MemoryManager) (size : Int) : Nat → Nat → Int
  | 0, _ => -1
  | n + 1, i =>
    if (m.blocks i).is_free && decide ((m.blocks i).size ≥ size) then (i : Int)
    else find_first_fit_loop m size n (i + 1)

def find_first_fit (m : MemoryManager) (size : Int) : Int :=
  find_first_fit_loop m size m.block_count 0

/-- Loop of `find_best_fit`, carrying `best_index` and `smallest_diff`. -/
def find_best_fit_loop (m : MemoryManager) (size : Int) : Nat → Nat → Int → Int → Int
  | 0, _, best_index, _ => best_index
  | n + 1, i, best_index, smallest_diff =>
    if (m.blocks i).is_free && decide ((m.blocks i).size ≥ size) then
      if (m.blocks i).size - size < smallest_diff then
        find_best_fit_loop m size n (i + 1) (i : Int) ((m.blocks i).size - size)
      else find_best_fit_loop m size n (i + 1) best_index smallest_diff
    else find_best_fit_loop m size n (i + 1) best_index smallest_diff

def find_best_fit (m : MemoryManager) (size : Int) : Int :=
  find_best_fit_loop m size m.block_count 0 (-1) INT_MAX

/-- Loop of `find_worst_fit`, carrying `worst_index` and `largest_diff`. -/
def find_worst_fit_loop (m : MemoryManager) (size : Int) : Nat → Nat → Int → Int → Int
  | 0, _, worst_index, _ => worst_index
  | n + 1, i, worst_index, largest_diff =>
    if (m.blocks i).is_free && decide ((m.blocks i).size ≥ size) then
      if (m.blocks i).size - size > largest_diff then
        find_worst_fit_loop m size n (i + 1) (i : Int) ((m.blocks i).size - size)
      else find_worst_fit_loop m size n (i + 1) worst_index largest_diff
    else find_worst_fit_loop m size n (i + 1) worst_index largest_diff

def find_worst_fit (m : MemoryManager) (size : Int) : Int :=
  find_worst_fit_loop m size m.block_count 0 (-1) (-1)

/-! ## Initialisation and allocation -/

/-- The manager as set up by `initialize_memory_manager` for a memory of
`memory_size` KB (in `main` the three size fields are then assigned the value read
from the input file, which is the `memory_size` meant here). -/
def initialize_memory_manager (memory_size : Int) (strategy : AllocationStrategy) :
    MemoryManager :=
  { total_size := memory_size
    free_size := memory_size
    block_count := 1
    blocks := write (tableOf []) 0
      { start_address := 0, size := memory_size, is_free := true, process_id := -1 }
    strategy := strategy }

/-- The `switch (manager->strategy)` of `allocate_memory`. -/
def select_block (m : MemoryManager) (size : Int) : Int :=
  match m.strategy with
  | .FIRST_FIT => find_first_fit m size
  | .BEST_FIT => find_best_fit m size
  | .WORST_FIT => find_worst_fit m size

/-- The loop `for (i = block_count; i > block_index + 1; i--) blocks[i] = blocks[i-1]`:
`n` iterations remain, `i` is the loop variable. -/
def shift_up (blocks : Nat → MemoryBlock) : Nat → Nat → (Nat → MemoryBlock)
  | 0, _ => blocks
  | n + 1, i => shift_up (write blocks i (blocks (i - 1))) n (i - 1)

/-- The tail of `allocate_memory` ("Allocate the block to the process"). -/
def assign_block (m : MemoryManager) (p : Process) (block_index : Nat) :
    Bool × MemoryManager × Process :=
  (true,
   { m with
     blocks := write m.blocks block_index
       { m.blocks block_index with is_free := false, process_id := p.id }
     free_size := m.free_size - p.size },
   { p with block_index := (block_index : Int), state := .PROCESS_RUNNING })

/-- The splitting branch of `allocate_memory`, after the `MAX_BLOCKS` check. -/
def split_block (m : MemoryManager) (size : Int) (block_index : Nat) : MemoryManager :=
  let b1 := shift_up m.blocks (m.block_count - (block_index + 1)) m.block_count
  let b2 := write b1 (block_index + 1)
    { start_address := (b1 block_index).start_address + size
      size := (b1 block_index).size - size
      is_free := true
      process_id := -1 }
  let b3 := write b2 block_index { b2 block_index with size := size }
  { m with blocks := b3, block_count := m.block_count + 1 }

/-- `allocate_memory(manager, process)`: the returned flag, the manager and the
process after the call.  The searches return `-1` or a slot number, so the
conversion of a result other than `-1` to a slot number is exact.  The sum `size + 10`,
the differences and the new `free_size` are exact integers: they are the `int` values
of the code on the calls that `AllocateFits` describes. -/
def allocate_memory (m : MemoryManager) (p : Process) : Bool × MemoryManager × Process :=
  if p.size > m.free_size then (false, m, p)
  else
    let r := select_block m p.size
    if r = -1 then (false, m, p)
    else
      let block_index := r.toNat
      if (m.blocks block_index).size > p.size + 10 then
        if m.block_count ≥ MAX_BLOCKS then (false, m, p)
        else assign_block (split_block m p.size block_index) p block_index
      else assign_block m p block_index

/-- The driver's call `allocate_memory(manager, &processes[k])` on the process
array: the flag, the manager and the array after the call. -/
def allocate_at (m : MemoryManager) (ps : List Process) (k : Nat) :
    Option (Bool × MemoryManager × List Process) :=
  match ps[k]? with
  | none => none
  | some p =>
    let r := allocate_memory m p
    some (r.1, r.2.1, ps.set k r.2.2)

/-! ## Deallocation and coalescing -/

/-- The scan `for (i = 0; i < block_count - 1; i++)` of the coalescing loop up to
its first hit: the first `i` with blocks `i` and `i+1` both free. -/
def find_adjacent_free (m : MemoryManager) : Nat → Nat → Option Nat
  | 0, _ => none
  | n + 1, i =>
    if (m.blocks i).is_free && (m.blocks (i + 1)).is_free then some i
    else find_adjacent_free m n (i + 1)

/-- The loop `for (j = i + 1; j < block_count - 1; j++) blocks[j] = blocks[j+1]`:
`n` iterations remain, `j` is the loop variable. -/
def shift_down (blocks : Nat → MemoryBlock) : Nat → Nat → (Nat → MemoryBlock)
  | 0, _ => blocks
  | n + 1, j => shift_down (write blocks j (blocks (j + 1))) n (j + 1)

/-- Merge of blocks `i` and `i+1` on the block table: add the sizes, shift the
later blocks down, decrement `block_count`. -/
def merge_blocks (m : MemoryManager) (i : Nat) : MemoryManager :=
  let b1 := write m.blocks i
    { m.blocks i with size := (m.blocks i).size + (m.blocks (i + 1)).size }
  { m with
    blocks := shift_down b1 (m.block_count - 1 - (i + 1)) (i + 1)
    block_count := m.block_count - 1 }

/-- The loop `for (j = 0; j < MAX_PROCESSES; j++) if (process[j].block_index > i + 1)
process[j].block_index--`, where `process` points at entry `k` of the array. -/
def update_indices (i k : Nat) : Nat → Nat → List Process → List Process
  | 0, _, ps => ps
  | n + 1, j, ps =>
    update_indices i k n (j + 1)
      (match ps[k + j]? with
       | some q =>
         if q.block_index > (i : Int) + 1 then
           ps.set (k + j) { q with block_index := q.block_index - 1 }
         else ps
       | none => ps)

/-- The `do ... while (merged)` loop of `deallocate_memory`: each round scans for
the first adjacent free pair, merges it and restarts, or stops when there is none. -/
def coalesce_restart :
    Nat → MemoryManager → List Process → Nat → Option (MemoryManager × List Process)
  | 0, _, _, _ => none
  | fuel + 1, m, ps, k =>
    match find_adjacent_free m (m.block_count - 1) 0 with
    | none => some (m, ps)
    | some i =>
      coalesce_restart fuel (merge_blocks m i) (update_indices i k MAX_PROCESSES 0 ps) k

/-- The head of `deallocate_memory` on the manager ("Mark the memory block as free"):
block `index` becomes free and ownerless and its size is added to `free_size`.  The
sum is the exact integer: it is the `int` value of the code when `InInt` holds of it,
as the runs of `Reachable` and `ReachableValid` require. -/
def release_block (m : MemoryManager) (index : Nat) : MemoryManager :=
  { m with
    blocks := write m.blocks index { m.blocks index with is_free := true, process_id := -1 }
    free_size := m.free_size + (m.blocks index).size }

/-- `deallocate_memory(manager, &processes[k])`.  A `block_index` below `-1` would
index before the array and is outside the model (`none`), as is a `k` outside the
process array. -/
def deallocate_memory (fuel : Nat) (m : MemoryManager) (ps : List Process) (k : Nat) :
    Option (MemoryManager × List Process) :=
  match ps[k]? with
  | none => none
  | some p =>
    if p.block_index = -1 then some (m, ps)
    else if p.block_index < 0 then none
    else
      coalesce_restart fuel (release_block m p.block_index.toNat)
        (ps.set k { p with state := .PROCESS_TERMINATED, block_index := -1 }) k

/-- The loop of `coalesce_memory`: `i` advances only when no merge happened. -/
def coalesce_loop : Nat → MemoryManager → Nat → Bool → Option (Bool × MemoryManager)
  | 0, _, _, _ => none
  | fuel + 1, m, i, merged =>
    if i + 1 < m.block_count then
      if (m.blocks i).is_free && (m.blocks (i + 1)).is_free then
        coalesce_loop fuel (merge_blocks m i) i true
      else coalesce_loop fuel m (i + 1) merged
    else some (merged, m)

/-- `coalesce_memory(manager, processes)`: the returned flag, the manager and the
process array (which the function does not touch). -/
def coalesce_memory (fuel : Nat) (m : MemoryManager) (ps : List Process) :
    Option (Bool × MemoryManager × List Process) :=
  match coalesce_loop fuel m 0 false with
  | none => none
  | some r => some (r.1, r.2, ps)

/-! ## Derived quantities used in the statements -/

/-- Sum of the sizes of the live blocks that are marked free. -/
def freeBlockSum (m : MemoryManager) : Int :=
  (((liveBlocks m).filter (fun b => b.is_free)).map (fun b => b.size)).sum

/-- A manager whose live blocks are the given list. -/
def managerOf (total free : Int) (bs : List MemoryBlock) (s : AllocationStrategy) :
    MemoryManager :=
  { total_size := total, free_size := free, block_count := bs.length,
    blocks := tableOf bs, strategy := s }

/-- Block `i` is live, free and its size is at least `size`. -/
def Fits (m : MemoryManager) (size : Int) (i : Nat) : Prop :=
  i < m.block_count ∧ (m.blocks i).is_free = true ∧ (m.blocks i).size ≥ size

/-- The block list `[free 100][used 50][free 30][free 200]` of the strategy example. -/
def strategyExample (s : AllocationStrategy) : MemoryManager :=
  managerOf 380 330
    [⟨0, 100, true, -1⟩, ⟨100, 50, false, 1⟩, ⟨150, 30, true, -1⟩, ⟨180, 200, true, -1⟩] s

/-- Invariant of the loop of `find_best_fit` before iteration `i`. -/
def BestInv (m : MemoryManager) (size : Int) (i : Nat) (best_index smallest_diff : Int) : Prop :=
  (best_index = -1 ∧ smallest_diff = INT_MAX ∧
    ∀ j, j < i → ¬ ((m.blocks j).is_free = true ∧ (m.blocks j).size ≥ size)) ∨
  (∃ b : Nat, best_index = (b : Int) ∧ b < i ∧
    ((m.blocks b).is_free = true ∧ (m.blocks b).size ≥ size) ∧
    smallest_diff = (m.blocks b).size - size ∧
    (∀ j, j < i → (m.blocks j).is_free = true ∧ (m.blocks j).size ≥ size →
      (m.blocks b).size ≤ (m.blocks j).size) ∧
    (∀ j, j < b → (m.blocks j).is_free = true ∧ (m.blocks j).size ≥ size →
      (m.blocks b).size < (m.blocks j).size))

/-- Every Running process's `block_index` is the index of a live block whose
`process_id` is that process's id. -/
def RefsConsistent (m : MemoryManager) (ps : List Process) : Prop :=
  ∀ q ∈ ps, q.state = .PROCESS_RUNNING →
    0 ≤ q.block_index ∧ q.block_index.toNat < m.block_count ∧
      (m.blocks q.block_index.toNat).process_id = q.id

instance (m : MemoryManager) (ps : List Process) : Decidable (RefsConsistent m ps) := by
  unfold RefsConsistent
  infer_instance

/-- A successful driver call `allocate_memory(manager, &processes[k])` as a step on
the pair of manager and process array. -/
def allocStep (k : Nat) (s : MemoryManager × List Process) :
    Option (MemoryManager × List Process) :=
  match allocate_at s.1 s.2 k with
  | some (true, m, ps) => some (m, ps)
  | _ => none

/-- The driver call `deallocate_memory(manager, &processes[k])` as a step on the pair
of manager and process array. -/
def deallocStep (fuel k : Nat) (s : MemoryManager × List Process) :
    Option (MemoryManager × List Process) :=
  deallocate_memory fuel s.1 s.2 k

/-- What a state shows to an observer: the size counters, the live blocks, the
process array, the sum of the free block sizes and whether the process references
are consistent with the block table. -/
structure Snapshot where
  total_size : Int
  free_size : Int
  free_block_sum : Int
  blocks : List MemoryBlock
  processes : List Process
  refs_consistent : Bool
deriving DecidableEq

def observe (s : MemoryManager × List Process) : Snapshot :=
  { total_size := s.1.total_size
    free_size := s.1.free_size
    free_block_sum := freeBlockSum s.1
    blocks := liveBlocks s.1
    processes := s.2
    refs_consistent := decide (RefsConsistent s.1 s.2) }

/-- A memory of 48 KB and one process of 40 KB. -/
def driftStart : MemoryManager × List Process :=
  (initialize_memory_manager 48 .FIRST_FIT, [⟨1, 40, .PROCESS_NEW, -1⟩])

/-- A memory of 150 KB with processes of 100, 50 and 30 KB; the first two are
allocated and the first is then terminated, which leaves `[free 100][used 50]`. -/
def staleStart : Option (MemoryManager × List Process) :=
  (((some (initialize_memory_manager 150 .FIRST_FIT,
      [⟨1, 100, .PROCESS_NEW, -1⟩, ⟨2, 50, .PROCESS_NEW, -1⟩, ⟨3, 30, .PROCESS_NEW, -1⟩])).bind
    (allocStep 0)).bind (allocStep 1)).bind (deallocStep 5 0)

/-- A memory of 100 KB whose process array is given; the processes at positions
`a`, `b`, `c` are allocated in that order and the one at position `a` is terminated. -/
def remapStart (ps : List Process) (a b c : Nat) : Option (MemoryManager × List Process) :=
  ((((some (initialize_memory_manager 100 .FIRST_FIT, ps)).bind
    (allocStep a)).bind (allocStep b)).bind (allocStep c)).bind (deallocStep 5 a)

/-- No two adjacent live blocks are both free. -/
def NoAdjacentFree (m : MemoryManager) : Prop :=
  ∀ i, i + 1 < m.block_count →
    ¬ ((m.blocks i).is_free = true ∧ (m.blocks (i + 1)).is_free = true)

/-- The live blocks tile `[0, total_size)`: there is at least one block, block 0
starts at 0, every block has positive size, each block ends where the next one starts,
and the last block ends at `total_size`. -/
def Tiles (m : MemoryManager) : Prop :=
  0 < m.block_count ∧
  (m.blocks 0).start_address = 0 ∧
  (∀ i, i < m.block_count → 0 < (m.blocks i).size) ∧
  (∀ i, i + 1 < m.block_count →
    (m.blocks i).start_address + (m.blocks i).size = (m.blocks (i + 1)).start_address) ∧
  (m.blocks (m.block_count - 1)).start_address + (m.blocks (m.block_count - 1)).size =
    m.total_size

/-- The states the driver can reach from an initialized manager of capacity
`total_size`: calls of `allocate_memory` on a process of the array or on a separate
process that is then appended to the array (the large process of the last phase), each
of positive size, calls of `deallocate_memory` and calls of `coalesce_memory`, the last
two with any step budget under which they return.  A call of `deallocate_memory` that
frees a block is one whose addition `free_size += blocks[index].size` fits an `int`. -/
inductive Reachable (total_size : Int) : MemoryManager → List Process → Prop where
  | init (strategy : AllocationStrategy) (ps : List Process) :
      Reachable total_size (initialize_memory_manager total_size strategy) ps
  | allocate {m : MemoryManager} {ps : List Process} (k : Nat) (p : Process) :
      Reachable total_size m ps → ps[k]? = some p → 0 < p.size →
      Reachable total_size (allocate_memory m p).2.1 (ps.set k (allocate_memory m p).2.2)
  | allocate_new {m : MemoryManager} {ps : List Process} (p : Process) :
      Reachable total_size m ps → 0 < p.size →
      Reachable total_size (allocate_memory m p).2.1 (ps ++ [(allocate_memory m p).2.2])
  | deallocate {m m' : MemoryManager} {ps ps' : List Process} (fuel k : Nat) :
      Reachable total_size m ps →
      (∀ p, ps[k]? = some p → p.block_index ≠ -1 →
        InInt (m.free_size + (m.blocks p.block_index.toNat).size)) →
      deallocate_memory fuel m ps k = some (m', ps') →
      Reachable total_size m' ps'
  | coalesce {m m' : MemoryManager} {ps ps' : List Process} (fuel : Nat) (merged : Bool) :
      Reachable total_size m ps → coalesce_memory fuel m ps = some (merged, m', ps') →
      Reachable total_size m' ps'

/-- Invariant of the loop of `find_worst_fit` before iteration `i`. -/
def WorstInv (m : MemoryManager) (size : Int) (i : Nat) (worst_index largest_diff : Int) :
    Prop :=
  (worst_index = -1 ∧ largest_diff = -1 ∧
    ∀ j, j < i → ¬ ((m.blocks j).is_free = true ∧ (m.blocks j).size ≥ size)) ∨
  (∃ b : Nat, worst_index = (b : Int) ∧ b < i ∧
    ((m.blocks b).is_free = true ∧ (m.blocks b).size ≥ size) ∧
    largest_diff = (m.blocks b).size - size ∧
    (∀ j, j < i → (m.blocks j).is_free = true ∧ (m.blocks j).size ≥ size →
      (m.blocks j).size ≤ (m.blocks b).size) ∧
    (∀ j, j < b → (m.blocks j).is_free = true ∧ (m.blocks j).size ≥ size →
      (m.blocks j).size < (m.blocks b).size))

/-! ## The coalesced block list, as the specification words it -/

/-- Sum of the sizes of a list of blocks. -/
def sizeSum (l : List MemoryBlock) : Int :=
  (l.map (fun b => b.size)).sum

/-- The block list cut into its maximal runs of consecutive free blocks; a used block
is a run of its own. -/
def runs : List MemoryBlock → List (List MemoryBlock)
  | [] => []
  | b :: rest =>
    match runs rest with
    | (c :: r) :: rs =>
      if b.is_free && c.is_free then (b :: c :: r) :: rs else [b] :: (c :: r) :: rs
    | _ => [[b]]

/-- Each run replaced by one block: the run's first block (its start address, free
flag and owner) with the sum of the run's sizes. -/
def mergeAll : List (List MemoryBlock) → List MemoryBlock
  | [] => []
  | [] :: rs => mergeAll rs
  | (b :: r) :: rs => { b with size := b.size + sizeSum r } :: mergeAll rs

/-- The coalesced block list: every maximal run of consecutive free blocks replaced by
one free block with the run's first start address and the sum of the run's sizes, used
blocks untouched. -/
def coalesceRuns (l : List MemoryBlock) : List MemoryBlock :=
  mergeAll (runs l)

/-- The block list `[free 100][used 50 by process 2]` of a 150 KB memory. -/
def roundtripExample : MemoryManager :=
  managerOf 150 100 [⟨0, 100, true, -1⟩, ⟨100, 50, false, 2⟩] .FIRST_FIT

/-! ## Fragmentation metrics -/

/-- Rounding of a rational to the nearest integer, ties to the even one. -/
def roundHalfEven (q : ℚ) : ℤ :=
  if q - ⌊q⌋ < 1 / 2 then ⌊q⌋
  else if 1 / 2 < q - ⌊q⌋ then ⌊q⌋ + 1
  else if ⌊q⌋ % 2 = 0 then ⌊q⌋ else ⌊q⌋ + 1

/-- The C `double` nearest to a rational `q`: IEEE 754 binary64, round to nearest,
ties to even, so 53 significant bits at the binary exponent of `q`.  The exponent
range is not bounded; for the values the metrics compute (C `int` values, their
quotients, and products with 100) that is exactly the `double` result. -/
def roundDouble (q : ℚ) : ℚ :=
  if q = 0 then 0
  else (roundHalfEven (q / (2 : ℚ) ^ (Int.log 2 |q| - 52)) : ℚ) * (2 : ℚ) ^ (Int.log 2 |q| - 52)

/-- The conversion `(double) n` of a C `int`. -/
def intToDouble (n : Int) : ℚ :=
  roundDouble (n : ℚ)

/-- The `double` division `x / y`. -/
def doubleDiv (x y : ℚ) : ℚ :=
  roundDouble (x / y)

/-- The `double` multiplication `x * y`. -/
def doubleMul (x y : ℚ) : ℚ :=
  roundDouble (x * y)

/-- The `Statistics` record; a `double` field holds the rational value of the double. -/
structure Statistics where
  allocation_attempts : Int
  successful_allocations : Int
  failed_allocations : Int
  avg_utilization : ℚ
  peak_utilization : ℚ
  external_fragmentation : Int
  fragmentation_percentage : ℚ
  avg_fragment_size : ℚ

/-- The loop "Count free blocks" of `update_fragmentation_metrics`, carrying
`stats->external_fragmentation`, `total_free_size` and `free_block_count`.  The sum
`total_free_size` is the exact integer: it is the `int` value of the code on the
managers that `MetricsFit` describes. -/
def count_free_loop (m : MemoryManager) : Nat → Nat → Int × Int × Int → Int × Int × Int
  | 0, _, acc => acc
  | n + 1, i, acc =>
    if (m.blocks i).is_free then
      count_free_loop m n (i + 1) (acc.1 + 1, acc.2.1 + (m.blocks i).size, acc.2.2 + 1)
    else count_free_loop m n (i + 1) acc

/-- The loop "Find the largest free block", carrying `largest_free_block`. -/
def largest_free_loop (m : MemoryManager) : Nat → Nat → Int → Int
  | 0, _, largest => largest
  | n + 1, i, largest =>
    if (m.blocks i).is_free && decide ((m.blocks i).size > largest) then
      largest_free_loop m n (i + 1) (m.blocks i).size
    else largest_free_loop m n (i + 1) largest

/-- `update_fragmentation_metrics(manager, processes, num_processes, stats)`: the
manager and the statistics after the call.  The function reads neither `processes`
nor `num_processes`, so they are left out. -/
def update_fragmentation_metrics (m : MemoryManager) (stats : Statistics) :
    MemoryManager × Statistics :=
  (m,
   { stats with
     external_fragmentation := (count_free_loop m m.block_count 0 (0, 0, 0)).1
     avg_fragment_size :=
       if (count_free_loop m m.block_count 0 (0, 0, 0)).2.2 > 0 then
         doubleDiv (intToDouble (count_free_loop m m.block_count 0 (0, 0, 0)).2.1)
           (intToDouble (count_free_loop m m.block_count 0 (0, 0, 0)).2.2)
       else 0
     fragmentation_percentage :=
       if m.free_size > 0 then
         if (count_free_loop m m.block_count 0 (0, 0, 0)).2.2 > 1 then
           doubleMul
             (doubleDiv (intToDouble (m.free_size - largest_free_loop m m.block_count 0 0))
               (intToDouble m.free_size))
             100
         else 0
       else 0 })

/-- Number of live blocks that are marked free. -/
def freeCount (m : MemoryManager) : Int :=
  (((liveBlocks m).filter (fun b => b.is_free)).length : Int)

/-- Size of the largest free live block (0 when no free block has a positive size). -/
def largestFree (m : MemoryManager) : Int :=
  (((liveBlocks m).filter (fun b => b.is_free)).map (fun b => b.size)).foldr max 0

/-- A 200 KB memory whose free blocks have sizes 10, 10 and 80 and whose `free_size`
is 100. -/
def fragmentationExample : MemoryManager :=
  managerOf 200 100
    [⟨0, 10, true, -1⟩, ⟨10, 50, false, 1⟩, ⟨60, 10, true, -1⟩, ⟨70, 50, false, 2⟩,
      ⟨120, 80, true, -1⟩] .FIRST_FIT

/-- Sum of the sizes of the free blocks of a block list. -/
def freeSum (l : List MemoryBlock) : Int :=
  ((l.filter (fun b => b.is_free)).map (fun b => b.size)).sum

/-- The states reached from an initialized manager of capacity `total_size` by calls
of `allocate_memory` (on a process of the array, or on a separate process that is then
appended to it) for processes of positive size and calls of `deallocate_memory` for
processes whose `block_index` is a valid block index and whose addition
`free_size += blocks[index].size` fits an `int`. -/
inductive ReachableValid (total_size : Int) : MemoryManager → List Process → Prop where
  | init (strategy : AllocationStrategy) (ps : List Process) :
      ReachableValid total_size (initialize_memory_manager total_size strategy) ps
  | allocate {m : MemoryManager} {ps : List Process} (k : Nat) (p : Process) :
      ReachableValid total_size m ps → ps[k]? = some p → 0 < p.size →
      ReachableValid total_size (allocate_memory m p).2.1
        (ps.set k (allocate_memory m p).2.2)
  | allocate_new {m : MemoryManager} {ps : List Process} (p : Process) :
      ReachableValid total_size m ps → 0 < p.size →
      ReachableValid total_size (allocate_memory m p).2.1
        (ps ++ [(allocate_memory m p).2.2])
  | deallocate {m m' : MemoryManager} {ps ps' : List Process} (fuel k : Nat) (p : Process) :
      ReachableValid total_size m ps → ps[k]? = some p →
      (0 ≤ p.block_index ∧ p.block_index < (m.block_count : Int)) →
      InInt (m.free_size + (m.blocks p.block_index.toNat).size) →
      deallocate_memory fuel m ps k = some (m', ps') →
      ReachableValid total_size m' ps'

/-- Every `int` expression that `allocate_memory(m, p)` evaluates has a value that fits
an `int`: the differences `blocks[j].size - size` that the best-fit and worst-fit
searches and the split compute for fitting blocks, and, once a block is chosen,
`size + 10`, the new `free_size`, and the start address of the new free block when the
chosen block is split. -/
def AllocateFits (m : MemoryManager) (p : Process) : Prop :=
  (∀ j, j < m.block_count → (m.blocks j).is_free = true → (m.blocks j).size ≥ p.size →
    InInt ((m.blocks j).size - p.size)) ∧
  (p.size ≤ m.free_size → select_block m p.size ≠ -1 →
    InInt (p.size + 10) ∧ InInt (m.free_size - p.size) ∧
    ((m.blocks (select_block m p.size).toNat).size > p.size + 10 →
      InInt ((m.blocks (select_block m p.size).toNat).start_address + p.size)))

instance (m : MemoryManager) (p : Process) : Decidable (AllocateFits m p) := by
  unfold AllocateFits
  infer_instance

/-- Every `int` expression that `update_fragmentation_metrics(m, ...)` evaluates has a
value that fits an `int`: the block table is within its `MAX_BLOCKS` slots (so the two
counters fit), `free_size` is an `int`, every partial sum of `total_free_size` fits,
and so does `free_size - largest_free_block` when `free_size > 0`. -/
def MetricsFit (m : MemoryManager) : Prop :=
  m.block_count ≤ MAX_BLOCKS ∧ InInt m.free_size ∧
  (∀ n, n ≤ m.block_count → InInt (freeSum ((liveBlocks m).take n))) ∧
  (0 < m.free_size → InInt (m.free_size - largestFree m))

instance (m : MemoryManager) : Decidable (MetricsFit m) := by
  unfold MetricsFit
  infer_instance

/-! ## Basic facts about slot assignment and the shifting loops -/

theorem write_same (blocks : Nat → MemoryBlock) (i : Nat) (b : MemoryBlock) :
    write blocks i b i = b := by
  simp [write]

theorem write_other (blocks : Nat → MemoryBlock) (i j : Nat) (b : MemoryBlock) (h : j ≠ i) :
    write blocks i b j = blocks j := by
  simp [write, h]

theorem shift_down_apply (n : Nat) : ∀ (blocks : Nat → MemoryBlock) (j0 j : Nat),
    shift_down blocks n j0 j = if j0 ≤ j ∧ j < j0 + n then blocks (j + 1) else blocks j := by
  induction n with
  | zero =>
    intro blocks j0 j
    rw [shift_down, if_neg (by omega)]
  | succ n ih =>
    intro blocks j0 j
    rw [shift_down, ih]
    by_cases h1 : j0 + 1 ≤ j ∧ j < j0 + 1 + n
    · have h2 : j0 ≤ j ∧ j < j0 + (n + 1) := by omega
      rw [if_pos h1, if_pos h2, write_other]
      omega
    · rw [if_neg h1]
      by_cases h3 : j = j0
      · subst h3
        rw [write_same, if_pos]
        omega
      · rw [write_other _ _ _ _ h3, if_neg]
        omega

theorem shift_up_apply (n : Nat) : ∀ (blocks : Nat → MemoryBlock) (i j : Nat), n ≤ i →
    shift_up blocks n i j = if i - n < j ∧ j ≤ i then blocks (j - 1) else blocks j := by
  induction n with
  | zero =>
    intro blocks i j _
    rw [shift_up, if_neg (by omega)]
  | succ n ih =>
    intro blocks i j hn
    rw [shift_up, ih _ _ _ (by omega)]
    by_cases h1 : i - 1 - n < j ∧ j ≤ i - 1
    · have h2 : i - (n + 1) < j ∧ j ≤ i := by omega
      rw [if_pos h1, if_pos h2, write_other]
      omega
    · rw [if_neg h1]
      by_cases h3 : j = i
      · subst h3
        rw [write_same, if_pos]
        omega
      · rw [write_other _ _ _ _ h3, if_neg]
        omega

/-- Slots of the table after the split of block `bi`. -/
theorem split_block_apply (m : MemoryManager) (size : Int) (bi j : Nat)
    (hbi : bi < m.block_count) :
    (split_block m size bi).blocks j =
      if j < bi then m.blocks j
      else if j = bi then { m.blocks bi with size := size }
      else if j = bi + 1 then
        { start_address := (m.blocks bi).start_address + size
          size := (m.blocks bi).size - size, is_free := true, process_id := -1 }
      else if j ≤ m.block_count then m.blocks (j - 1)
      else m.blocks j := by
  have hsu : ∀ t, shift_up m.blocks (m.block_count - (bi + 1)) m.block_count t =
      if bi + 1 < t ∧ t ≤ m.block_count then m.blocks (t - 1) else m.blocks t := by
    intro t
    rw [shift_up_apply _ _ _ _ (by omega)]
    have : m.block_count - (m.block_count - (bi + 1)) = bi + 1 := by omega
    rw [this]
  have hbi0 : shift_up m.blocks (m.block_count - (bi + 1)) m.block_count bi = m.blocks bi := by
    rw [hsu, if_neg]; omega
  simp only [split_block]
  by_cases h1 : j < bi
  · rw [if_pos h1, write_other _ _ _ _ (by omega), write_other _ _ _ _ (by omega), hsu, if_neg]
    omega
  · rw [if_neg h1]
    by_cases h2 : j = bi
    · subst h2
      rw [if_pos rfl, write_same, write_other _ _ _ _ (by omega), hbi0]
    · rw [if_neg h2, write_other _ _ _ _ h2]
      by_cases h3 : j = bi + 1
      · subst h3
        rw [if_pos rfl, write_same, hbi0]
      · rw [if_neg h3, write_other _ _ _ _ h3, hsu]
        by_cases h4 : j ≤ m.block_count
        · rw [if_pos h4, if_pos]; omega
        · rw [if_neg h4, if_neg]; omega

/-- Slots of the table after the merge of blocks `i` and `i+1`. -/
theorem merge_blocks_apply (m : MemoryManager) (i j : Nat) (hi : i + 1 < m.block_count) :
    (merge_blocks m i).blocks j =
      if j < i then m.blocks j
      else if j = i then { m.blocks i with size := (m.blocks i).size + (m.blocks (i + 1)).size }
      else if j + 1 < m.block_count then m.blocks (j + 1)
      else m.blocks j := by
  simp only [merge_blocks]
  rw [shift_down_apply]
  by_cases h1 : j < i
  · rw [if_pos h1, if_neg (by omega), write_other _ _ _ _ (by omega)]
  · rw [if_neg h1]
    by_cases h2 : j = i
    · subst h2
      rw [if_pos rfl, if_neg (by omega), write_same]
    · rw [if_neg h2]
      by_cases h3 : j + 1 < m.block_count
      · rw [if_pos h3, if_pos (by omega), write_other _ _ _ _ (by omega)]
      · rw [if_neg h3, if_neg (by omega), write_other _ _ _ _ h2]

/-! ## Placement searches -/

theorem find_first_fit_loop_spec (m : MemoryManager) (size : Int) (n : Nat) : ∀ i : Nat,
    (find_first_fit_loop m size n i = -1 ∧
      ∀ j, i ≤ j → j < i + n → ¬ ((m.blocks j).is_free = true ∧ (m.blocks j).size ≥ size)) ∨
    (∃ b : Nat, find_first_fit_loop m size n i = (b : Int) ∧ i ≤ b ∧ b < i + n ∧
      ((m.blocks b).is_free = true ∧ (m.blocks b).size ≥ size) ∧
      ∀ j, i ≤ j → j < b → ¬ ((m.blocks j).is_free = true ∧ (m.blocks j).size ≥ size)) := by
  induction n with
  | zero =>
    intro i
    left
    refine ⟨rfl, ?_⟩
    intro j h1 h2
    omega
  | succ n ih =>
    intro i
    by_cases hc : (m.blocks i).is_free = true ∧ (m.blocks i).size ≥ size
    · right
      refine ⟨i, ?_, le_refl _, by omega, hc, ?_⟩
      · simp [find_first_fit_loop, hc.1, hc.2]
      · intro j h1 h2
        omega
    · have hstep : find_first_fit_loop m size (n + 1) i = find_first_fit_loop m size n (i + 1) := by
        rw [find_first_fit_loop, if_neg]
        simpa [Bool.and_eq_true] using hc
      rw [hstep]
      have hskip : ∀ j, i ≤ j → j < i + 1 →
          ¬ ((m.blocks j).is_free = true ∧ (m.blocks j).size ≥ size) := by
        intro j h1 h2
        have : j = i := by omega
        rw [this]
        exact hc
      rcases ih (i + 1) with ⟨h1, h2⟩ | ⟨b, h1, h2, h3, h4, h5⟩
      · left
        refine ⟨h1, ?_⟩
        intro j hj1 hj2
        by_cases hji : j < i + 1
        · exact hskip j hj1 hji
        · exact h2 j (by omega) (by omega)
      · right
        refine ⟨b, h1, by omega, by omega, h4, ?_⟩
        intro j hj1 hj2
        by_cases hji : j < i + 1
        · exact hskip j hj1 hji
        · exact h5 j (by omega) hj2

theorem find_first_fit_spec (m : MemoryManager) (size : Int) :
    (find_first_fit m size = -1 ∧ ∀ j, ¬ Fits m size j) ∨
    (∃ b : Nat, find_first_fit m size = (b : Int) ∧ Fits m size b ∧
      ∀ j, j < b → ¬ Fits m size j) := by
  rcases find_first_fit_loop_spec m size m.block_count 0 with ⟨h1, h2⟩ | ⟨b, h1, _, h3, h4, h5⟩
  · left
    refine ⟨h1, ?_⟩
    intro j hj
    exact h2 j (Nat.zero_le _) (by have := hj.1; omega) hj.2
  · right
    refine ⟨b, h1, ⟨by omega, h4⟩, ?_⟩
    intro j hj hf
    exact h5 j (Nat.zero_le _) hj hf.2

/-- C9: `find_first_fit` returns `-1` or a slot number; it returns `-1` exactly when
no live free block has size at least the requested size, and it returns `i` exactly
when `i` is the smallest index of a live free block of size at least the requested
size.  On `[free 100][used 50][free 30][free 200]` with request 30 it returns index 0,
the free block of size 100. -/
theorem C9_find_first_fit_smallest_index :
    (∀ (m : MemoryManager) (size : Int),
      (find_first_fit m size = -1 ∨ ∃ i : Nat, find_first_fit m size = (i : Int)) ∧
      (find_first_fit m size = -1 ↔ ∀ j, ¬ Fits m size j) ∧
      (∀ i : Nat, find_first_fit m size = (i : Int) ↔
        (Fits m size i ∧ ∀ j, j < i → ¬ Fits m size j))) ∧
    (find_first_fit (strategyExample .FIRST_FIT) 30 = 0 ∧
      (strategyExample .FIRST_FIT).blocks 0 = ⟨0, 100, true, -1⟩) := by
  refine ⟨?_, by decide, by decide⟩
  intro m size
  rcases find_first_fit_spec m size with ⟨h1, h2⟩ | ⟨b, h1, h2, h3⟩
  · refine ⟨Or.inl h1, ⟨fun _ => h2, fun _ => h1⟩, ?_⟩
    intro i
    constructor
    · intro hi
      rw [h1] at hi
      omega
    · intro hi
      exact absurd hi.1 (h2 i)
  · refine ⟨Or.inr ⟨b, h1⟩, ⟨?_, ?_⟩, ?_⟩
    · intro hneg
      rw [h1] at hneg
      omega
    · intro hnone
      exact absurd h2 (hnone b)
    · intro i
      rw [h1]
      constructor
      · intro hi
        have : b = i := by omega
        subst this
        exact ⟨h2, h3⟩
      · intro hi
        have h4 : ¬ b < i := fun hlt => hi.2 b hlt h2
        have h5 : ¬ i < b := fun hlt => h3 i hlt hi.1
        have : b = i := by omega
        rw [this]

/-- On the strategy example with request 30, index 0 is the smallest fitting index. -/
theorem C9_find_first_fit_smallest_index_witness :
    find_first_fit (strategyExample .FIRST_FIT) 30 = ((0 : Nat) : Int) ∧
      (Fits (strategyExample .FIRST_FIT) 30 0 ∧
        ∀ j, j < 0 → ¬ Fits (strategyExample .FIRST_FIT) 30 j) := by
  have h : find_first_fit (strategyExample .FIRST_FIT) 30 = ((0 : Nat) : Int) := by decide
  exact ⟨h, ((C9_find_first_fit_smallest_index.1 (strategyExample .FIRST_FIT) 30).2.2 0).1 h⟩

theorem find_best_fit_loop_inv (m : MemoryManager) (size : Int) (hsize : 0 < size) (n : Nat) :
    ∀ (i : Nat) (best_index smallest_diff : Int),
      (∀ j, j < i + n → (m.blocks j).size ≤ INT_MAX) →
      BestInv m size i best_index smallest_diff →
      ∃ d, BestInv m size (i + n) (find_best_fit_loop m size n i best_index smallest_diff) d := by
  induction n with
  | zero =>
    intro i best_index smallest_diff _ hinv
    exact ⟨smallest_diff, hinv⟩
  | succ n ih =>
    intro i best_index smallest_diff hrange hinv
    have hidx : i + (n + 1) = (i + 1) + n := by omega
    rw [hidx]
    have hrange2 : ∀ j, j < (i + 1) + n → (m.blocks j).size ≤ INT_MAX := by
      intro j hj
      exact hrange j (by omega)
    by_cases hc : (m.blocks i).is_free = true ∧ (m.blocks i).size ≥ size
    · by_cases hd : (m.blocks i).size - size < smallest_diff
      · have hstep : find_best_fit_loop m size (n + 1) i best_index smallest_diff =
            find_best_fit_loop m size n (i + 1) (i : Int) ((m.blocks i).size - size) := by
          rw [find_best_fit_loop, if_pos, if_pos hd]
          simpa [Bool.and_eq_true] using hc
        rw [hstep]
        apply ih (i + 1) _ _ hrange2
        right
        refine ⟨i, rfl, by omega, hc, rfl, ?_, ?_⟩
        · intro j hj hf
          by_cases hji : j = i
          · rw [hji]
          · rcases hinv with ⟨_, _, h3⟩ | ⟨b, _, _, _, h4, h5, _⟩
            · exact absurd hf (h3 j (by omega))
            · have := h5 j (by omega) hf
              omega
        · intro j hj hf
          rcases hinv with ⟨_, _, h3⟩ | ⟨b, _, _, _, h4, h5, _⟩
          · exact absurd hf (h3 j hj)
          · have := h5 j hj hf
            omega
      · have hstep : find_best_fit_loop m size (n + 1) i best_index smallest_diff =
            find_best_fit_loop m size n (i + 1) best_index smallest_diff := by
          rw [find_best_fit_loop, if_pos, if_neg hd]
          simpa [Bool.and_eq_true] using hc
        rw [hstep]
        apply ih (i + 1) _ _ hrange2
        rcases hinv with ⟨_, h2, _⟩ | ⟨b, h1, h2, h3, h4, h5, h6⟩
        · have := hrange i (by omega)
          omega
        · right
          refine ⟨b, h1, by omega, h3, h4, ?_, h6⟩
          intro j hj hf
          by_cases hji : j = i
          · rw [hji]
            omega
          · exact h5 j (by omega) hf
    · have hstep : find_best_fit_loop m size (n + 1) i best_index smallest_diff =
          find_best_fit_loop m size n (i + 1) best_index smallest_diff := by
        rw [find_best_fit_loop, if_neg]
        simpa [Bool.and_eq_true] using hc
      rw [hstep]
      apply ih (i + 1) _ _ hrange2
      rcases hinv with ⟨h1, h2, h3⟩ | ⟨b, h1, h2, h3, h4, h5, h6⟩
      · left
        refine ⟨h1, h2, ?_⟩
        intro j hj
        by_cases hji : j = i
        · rw [hji]
          exact hc
        · exact h3 j (by omega)
      · right
        refine ⟨b, h1, by omega, h3, h4, ?_, h6⟩
        intro j hj hf
        by_cases hji : j = i
        · rw [hji] at hf
          exact absurd hf hc
        · exact h5 j (by omega) hf

theorem find_best_fit_spec (m : MemoryManager) (size : Int) (hsize : 0 < size)
    (hrange : ∀ j, j < m.block_count → (m.blocks j).size ≤ INT_MAX) :
    (find_best_fit m size = -1 ∧ ∀ j, ¬ Fits m size j) ∨
    (∃ b : Nat, find_best_fit m size = (b : Int) ∧ Fits m size b ∧
      (∀ j, Fits m size j → (m.blocks b).size ≤ (m.blocks j).size) ∧
      (∀ j, j < b → Fits m size j → (m.blocks b).size < (m.blocks j).size)) := by
  have h0 : BestInv m size 0 (-1) INT_MAX := by
    left
    refine ⟨rfl, rfl, ?_⟩
    intro j hj
    omega
  obtain ⟨d, hd⟩ := find_best_fit_loop_inv m size hsize m.block_count 0 (-1) INT_MAX
    (by intro j hj; exact hrange j (by omega)) h0
  rw [Nat.zero_add] at hd
  rcases hd with ⟨h1, _, h3⟩ | ⟨b, h1, h2, h3, _, h5, h6⟩
  · left
    exact ⟨h1, fun j hj => h3 j hj.1 hj.2⟩
  · right
    exact ⟨b, h1, ⟨h2, h3⟩, fun j hj => h5 j hj.1 hj.2, fun j hj hf => h6 j hj hf.2⟩

/-- C10: for a positive requested size (block sizes being C `int` values, at most
`INT_MAX`), `find_best_fit` returns `-1` or a slot number; it returns `-1` exactly
when no live free block is large enough, and it returns `i` exactly when block `i` is
live, free and large enough, its size is the minimum over all such blocks, and every
such block at a lower index is strictly larger.  On
`[free 100][used 50][free 30][free 200]` with request 30 it returns index 2, the free
block of size 30. -/
theorem C10_find_best_fit_minimal_first :
    (∀ (m : MemoryManager) (size : Int), 0 < size →
      (∀ j, j < m.block_count → (m.blocks j).size ≤ INT_MAX) →
      (find_best_fit m size = -1 ∨ ∃ i : Nat, find_best_fit m size = (i : Int)) ∧
      (find_best_fit m size = -1 ↔ ∀ j, ¬ Fits m size j) ∧
      (∀ i : Nat, find_best_fit m size = (i : Int) ↔
        (Fits m size i ∧
          (∀ j, Fits m size j → (m.blocks i).size ≤ (m.blocks j).size) ∧
          (∀ j, j < i → Fits m size j → (m.blocks i).size < (m.blocks j).size)))) ∧
    (find_best_fit (strategyExample .BEST_FIT) 30 = 2 ∧
      (strategyExample .BEST_FIT).blocks 2 = ⟨150, 30, true, -1⟩) := by
  refine ⟨?_, by decide, by decide⟩
  intro m size hsize hrange
  rcases find_best_fit_spec m size hsize hrange with ⟨h1, h2⟩ | ⟨b, h1, h2, h3, h4⟩
  · refine ⟨Or.inl h1, ⟨fun _ => h2, fun _ => h1⟩, ?_⟩
    intro i
    constructor
    · intro hi
      rw [h1] at hi
      omega
    · intro hi
      exact absurd hi.1 (h2 i)
  · refine ⟨Or.inr ⟨b, h1⟩, ⟨?_, ?_⟩, ?_⟩
    · intro hneg
      rw [h1] at hneg
      omega
    · intro hnone
      exact absurd h2 (hnone b)
    · intro i
      rw [h1]
      constructor
      · intro hi
        have : b = i := by omega
        subst this
        exact ⟨h2, h3, h4⟩
      · intro hi
        have e1 := h3 i hi.1
        have e2 := hi.2.1 b h2
        have h5 : ¬ b < i := by
          intro hlt
          have := hi.2.2 b hlt h2
          omega
        have h6 : ¬ i < b := by
          intro hlt
          have := h4 i hlt hi.1
          omega
        have : b = i := by omega
        rw [this]

/-- On the strategy example with request 30, the hypotheses of the best-fit result hold. -/
theorem C10_find_best_fit_minimal_first_witness :
    (0 : Int) < 30 ∧
    (∀ j, j < (strategyExample .BEST_FIT).block_count →
      ((strategyExample .BEST_FIT).blocks j).size ≤ INT_MAX) ∧
    (find_best_fit (strategyExample .BEST_FIT) 30 = -1 ↔
      ∀ j, ¬ Fits (strategyExample .BEST_FIT) 30 j) :=
  ⟨by decide, by decide,
    (C10_find_best_fit_minimal_first.1 (strategyExample .BEST_FIT) 30 (by decide)
      (by decide)).2.1⟩

/-! ## Behaviour of the code on concrete runs -/

/-- C1: on a fresh 48 KB memory, allocating a 40 KB process hands out the whole 48 KB
block (no split) but lowers `free_size` by 40 only: `free_size` is 8 while no block is
free.  Deallocating that process then adds the block size 48, so `free_size` becomes 56
although the free blocks sum to 48, the total memory. -/
theorem C1_free_size_differs_from_free_block_sum :
    ((allocStep 0 driftStart).map observe =
      some ⟨48, 8, 0, [⟨0, 48, false, 1⟩], [⟨1, 40, .PROCESS_RUNNING, 0⟩], true⟩) ∧
    (((allocStep 0 driftStart).bind (deallocStep 2 0)).map observe =
      some ⟨48, 56, 48, [⟨0, 48, true, -1⟩], [⟨1, 40, .PROCESS_TERMINATED, -1⟩], true⟩) := by
  decide

/-- C2: from `[free 100][used 50 by process 2]`, where process 2 holds index 1 and the
references are consistent, allocating the 30 KB process 3 splits block 0 and gives
`[used 30][free 70][used 50]`; process 2 still holds index 1, which is now the free
block, so the references are no longer consistent. -/
theorem C2_split_leaves_later_references_stale :
    (staleStart.map observe =
      some ⟨150, 100, 100, [⟨0, 100, true, -1⟩, ⟨100, 50, false, 2⟩],
        [⟨1, 100, .PROCESS_TERMINATED, -1⟩, ⟨2, 50, .PROCESS_RUNNING, 1⟩,
          ⟨3, 30, .PROCESS_NEW, -1⟩], true⟩) ∧
    ((staleStart.bind (allocStep 2)).map observe =
      some ⟨150, 70, 70, [⟨0, 30, false, 3⟩, ⟨30, 70, true, -1⟩, ⟨100, 50, false, 2⟩],
        [⟨1, 100, .PROCESS_TERMINATED, -1⟩, ⟨2, 50, .PROCESS_RUNNING, 1⟩,
          ⟨3, 30, .PROCESS_RUNNING, 0⟩], false⟩) := by
  decide

/-- C3: in `[free 20][used 30 by process 2][used 50 by process 1]` process 1 holds
index 2.  Deallocating process 2 merges blocks 0 and 1 and removes slot 1.  When
process 1 stands before process 2 in the process array its index stays 2, past the two
remaining blocks; when it stands after process 2 its index becomes 1. -/
theorem C3_remap_skips_processes_before_the_freed_one :
    ((remapStart [⟨1, 50, .PROCESS_NEW, -1⟩, ⟨2, 30, .PROCESS_NEW, -1⟩,
          ⟨3, 20, .PROCESS_NEW, -1⟩] 2 1 0).map observe =
      some ⟨100, 20, 20, [⟨0, 20, true, -1⟩, ⟨20, 30, false, 2⟩, ⟨50, 50, false, 1⟩],
        [⟨1, 50, .PROCESS_RUNNING, 2⟩, ⟨2, 30, .PROCESS_RUNNING, 1⟩,
          ⟨3, 20, .PROCESS_TERMINATED, -1⟩], true⟩) ∧
    (((remapStart [⟨1, 50, .PROCESS_NEW, -1⟩, ⟨2, 30, .PROCESS_NEW, -1⟩,
          ⟨3, 20, .PROCESS_NEW, -1⟩] 2 1 0).bind (deallocStep 5 1)).map observe =
      some ⟨100, 50, 50, [⟨0, 50, true, -1⟩, ⟨50, 50, false, 1⟩],
        [⟨1, 50, .PROCESS_RUNNING, 2⟩, ⟨2, 30, .PROCESS_TERMINATED, -1⟩,
          ⟨3, 20, .PROCESS_TERMINATED, -1⟩], false⟩) ∧
    (((remapStart [⟨3, 20, .PROCESS_NEW, -1⟩, ⟨2, 30, .PROCESS_NEW, -1⟩,
          ⟨1, 50, .PROCESS_NEW, -1⟩] 0 1 2).bind (deallocStep 5 1)).map observe =
      some ⟨100, 50, 50, [⟨0, 50, true, -1⟩, ⟨50, 50, false, 1⟩],
        [⟨3, 20, .PROCESS_TERMINATED, -1⟩, ⟨2, 30, .PROCESS_TERMINATED, -1⟩,
          ⟨1, 50, .PROCESS_RUNNING, 1⟩], true⟩) := by
  refine ⟨by decide, by decide, by decide!⟩

/-- C7: on a fresh 50 KB memory, `allocate_memory` for a process of size 0 (the size
the driver computes for its large process from 1 percent of 50 KB) returns true,
splits the block into a used block of size 0 and a free block of size 50, and marks
the process Running; for size -5 it returns true as well and raises `free_size` to 55. -/
theorem C7_non_positive_size_is_allocated :
    ((allocate_at (initialize_memory_manager 50 .FIRST_FIT)
        [⟨9999, 0, .PROCESS_NEW, -1⟩] 0).map (fun r => (r.1, observe r.2)) =
      some (true, ⟨50, 50, 50, [⟨0, 0, false, 9999⟩, ⟨0, 50, true, -1⟩],
        [⟨9999, 0, .PROCESS_RUNNING, 0⟩], true⟩)) ∧
    ((allocate_at (initialize_memory_manager 50 .FIRST_FIT)
        [⟨9999, -5, .PROCESS_NEW, -1⟩] 0).map (fun r => (r.1, observe r.2)) =
      some (true, ⟨50, 55, 55, [⟨0, -5, false, 9999⟩, ⟨-5, 55, true, -1⟩],
        [⟨9999, -5, .PROCESS_RUNNING, 0⟩], true⟩)) := by
  decide

/-! ## The block chosen by the strategy -/

theorem find_best_fit_loop_range (m : MemoryManager) (size : Int) (n : Nat) :
    ∀ (i : Nat) (best_index smallest_diff : Int),
      find_best_fit_loop m size n i best_index smallest_diff = best_index ∨
      ∃ b : Nat, find_best_fit_loop m size n i best_index smallest_diff = (b : Int) ∧
        i ≤ b ∧ b < i + n ∧ (m.blocks b).is_free = true ∧ (m.blocks b).size ≥ size := by
  induction n with
  | zero =>
    intro i best_index smallest_diff
    exact Or.inl rfl
  | succ n ih =>
    intro i best_index smallest_diff
    rw [find_best_fit_loop]
    split_ifs with hc hd
    · simp only [Bool.and_eq_true, decide_eq_true_eq] at hc
      rcases ih (i + 1) (i : Int) ((m.blocks i).size - size) with h | ⟨b, h1, h2, h3, h4⟩
      · exact Or.inr ⟨i, h, le_refl _, by omega, hc⟩
      · exact Or.inr ⟨b, h1, by omega, by omega, h4⟩
    · rcases ih (i + 1) best_index smallest_diff with h | ⟨b, h1, h2, h3, h4⟩
      · exact Or.inl h
      · exact Or.inr ⟨b, h1, by omega, by omega, h4⟩
    · rcases ih (i + 1) best_index smallest_diff with h | ⟨b, h1, h2, h3, h4⟩
      · exact Or.inl h
      · exact Or.inr ⟨b, h1, by omega, by omega, h4⟩

theorem find_worst_fit_loop_range (m : MemoryManager) (size : Int) (n : Nat) :
    ∀ (i : Nat) (worst_index largest_diff : Int),
      find_worst_fit_loop m size n i worst_index largest_diff = worst_index ∨
      ∃ b : Nat, find_worst_fit_loop m size n i worst_index largest_diff = (b : Int) ∧
        i ≤ b ∧ b < i + n ∧ (m.blocks b).is_free = true ∧ (m.blocks b).size ≥ size := by
  induction n with
  | zero =>
    intro i worst_index largest_diff
    exact Or.inl rfl
  | succ n ih =>
    intro i worst_index largest_diff
    rw [find_worst_fit_loop]
    split_ifs with hc hd
    · simp only [Bool.and_eq_true, decide_eq_true_eq] at hc
      rcases ih (i + 1) (i : Int) ((m.blocks i).size - size) with h | ⟨b, h1, h2, h3, h4⟩
      · exact Or.inr ⟨i, h, le_refl _, by omega, hc⟩
      · exact Or.inr ⟨b, h1, by omega, by omega, h4⟩
    · rcases ih (i + 1) worst_index largest_diff with h | ⟨b, h1, h2, h3, h4⟩
      · exact Or.inl h
      · exact Or.inr ⟨b, h1, by omega, by omega, h4⟩
    · rcases ih (i + 1) worst_index largest_diff with h | ⟨b, h1, h2, h3, h4⟩
      · exact Or.inl h
      · exact Or.inr ⟨b, h1, by omega, by omega, h4⟩

/-- Whatever the strategy, the search returns `-1` or the index of a live free block
that is large enough. -/
theorem select_block_spec (m : MemoryManager) (size : Int) :
    select_block m size = -1 ∨
    ∃ b : Nat, select_block m size = (b : Int) ∧ Fits m size b := by
  unfold select_block
  cases m.strategy with
  | FIRST_FIT =>
    rcases find_first_fit_spec m size with ⟨h, _⟩ | ⟨b, h1, h2, _⟩
    · exact Or.inl h
    · exact Or.inr ⟨b, h1, h2⟩
  | BEST_FIT =>
    rcases find_best_fit_loop_range m size m.block_count 0 (-1) INT_MAX with
      h | ⟨b, h1, _, h3, h4⟩
    · exact Or.inl h
    · exact Or.inr ⟨b, h1, by omega, h4⟩
  | WORST_FIT =>
    rcases find_worst_fit_loop_range m size m.block_count 0 (-1) (-1) with
      h | ⟨b, h1, _, h3, h4⟩
    · exact Or.inl h
    · exact Or.inr ⟨b, h1, by omega, h4⟩

/-- The three ways `allocate_memory` proceeds once the strategy chose slot `b`. -/
theorem allocate_memory_cases (m : MemoryManager) (p : Process) :
    (allocate_memory m p = (false, m, p) ∧
      (p.size > m.free_size ∨ select_block m p.size = -1 ∨
        ((m.blocks (select_block m p.size).toNat).size > p.size + 10 ∧
          m.block_count ≥ MAX_BLOCKS))) ∨
    (∃ b : Nat, select_block m p.size = (b : Int) ∧ Fits m p.size b ∧
      p.size ≤ m.free_size ∧
      (((m.blocks b).size > p.size + 10 ∧ m.block_count < MAX_BLOCKS ∧
          allocate_memory m p = assign_block (split_block m p.size b) p b) ∨
        ((m.blocks b).size ≤ p.size + 10 ∧ allocate_memory m p = assign_block m p b))) := by
  unfold allocate_memory
  by_cases h1 : p.size > m.free_size
  · left
    rw [if_pos h1]
    exact ⟨rfl, Or.inl h1⟩
  · rw [if_neg h1]
    rcases select_block_spec m p.size with h2 | ⟨b, h2, h3⟩
    · left
      simp only [h2]
      exact ⟨by simp, Or.inr (Or.inl trivial)⟩
    · have hne : ¬ ((b : Int) = -1) := by omega
      simp only [h2, hne, if_false, Int.toNat_ofNat]
      by_cases h4 : (m.blocks b).size > p.size + 10
      · rw [if_pos h4]
        by_cases h5 : m.block_count ≥ MAX_BLOCKS
        · left
          rw [if_pos h5]
          exact ⟨rfl, Or.inr (Or.inr ⟨h4, h5⟩)⟩
        · right
          rw [if_neg h5]
          exact ⟨b, rfl, h3, by omega, Or.inl ⟨h4, by omega, rfl⟩⟩
      · right
        rw [if_neg h4]
        exact ⟨b, rfl, h3, by omega, Or.inr ⟨by omega, rfl⟩⟩

/-- C6: whenever `allocate_memory` returns false, the manager and the process it
returns are the ones it was given, and the failure has one of three causes: the
requested size exceeds `free_size`, the strategy found no block, or the chosen block
needs a split while `block_count` is already `MAX_BLOCKS`. -/
theorem C6_failed_allocation_changes_nothing (m : MemoryManager) (p : Process)
    (hfail : (allocate_memory m p).1 = false) :
    (allocate_memory m p).2.1 = m ∧ (allocate_memory m p).2.2 = p ∧
    (p.size > m.free_size ∨ select_block m p.size = -1 ∨
      ((m.blocks (select_block m p.size).toNat).size > p.size + 10 ∧
        m.block_count ≥ MAX_BLOCKS)) := by
  rcases allocate_memory_cases m p with ⟨h1, h2⟩ | ⟨b, _, _, _, h | h⟩
  · rw [h1]
    exact ⟨rfl, rfl, h2⟩
  · rw [h.2.2] at hfail
    simp [assign_block] at hfail
  · rw [h.2] at hfail
    simp [assign_block] at hfail

/-- A request of 250 KB on the strategy example fails (no single block fits) and leaves
the manager and the process as they were. -/
theorem C6_failed_allocation_changes_nothing_witness :
    (allocate_memory (strategyExample .BEST_FIT) ⟨7, 250, .PROCESS_NEW, -1⟩).1 = false ∧
    (allocate_memory (strategyExample .BEST_FIT) ⟨7, 250, .PROCESS_NEW, -1⟩).2.1 =
      strategyExample .BEST_FIT ∧
    (allocate_memory (strategyExample .BEST_FIT) ⟨7, 250, .PROCESS_NEW, -1⟩).2.2 =
      ⟨7, 250, .PROCESS_NEW, -1⟩ :=
  ⟨by decide,
    (C6_failed_allocation_changes_nothing (strategyExample .BEST_FIT)
      ⟨7, 250, .PROCESS_NEW, -1⟩ (by decide)).1,
    (C6_failed_allocation_changes_nothing (strategyExample .BEST_FIT)
      ⟨7, 250, .PROCESS_NEW, -1⟩ (by decide)).2.1⟩

/-! ## The block list after an allocation -/

theorem liveBlocks_length (m : MemoryManager) : (liveBlocks m).length = m.block_count := by
  simp [liveBlocks]

theorem liveBlocks_getElem? (m : MemoryManager) (j : Nat) :
    (liveBlocks m)[j]? = if j < m.block_count then some (m.blocks j) else none := by
  unfold liveBlocks
  by_cases h : j < m.block_count
  · rw [if_pos h, List.getElem?_map, List.getElem?_range h]
    rfl
  · rw [if_neg h, List.getElem?_eq_none]
    simp only [List.length_map, List.length_range]
    omega

theorem assign_block_apply (m : MemoryManager) (p : Process) (b j : Nat) :
    (assign_block m p b).2.1.blocks j =
      if j = b then { m.blocks b with is_free := false, process_id := p.id }
      else m.blocks j := by
  simp [assign_block, write]

/-- Slots of the table after an allocation that splits block `b`. -/
theorem assign_split_apply (m : MemoryManager) (p : Process) (b j : Nat)
    (hb : b < m.block_count) :
    (assign_block (split_block m p.size b) p b).2.1.blocks j =
      if j < b then m.blocks j
      else if j = b then ⟨(m.blocks b).start_address, p.size, false, p.id⟩
      else if j = b + 1 then
        ⟨(m.blocks b).start_address + p.size, (m.blocks b).size - p.size, true, -1⟩
      else if j ≤ m.block_count then m.blocks (j - 1)
      else m.blocks j := by
  by_cases h1 : j = b
  · subst h1
    rw [assign_block_apply, if_pos rfl, split_block_apply m p.size j j hb,
      if_neg (lt_irrefl j), if_pos rfl, if_neg (lt_irrefl j), if_pos rfl]
  · rw [assign_block_apply, if_neg h1, split_block_apply m p.size b j hb]
    by_cases h2 : j < b
    · rw [if_pos h2, if_pos h2]
    · rw [if_neg h2, if_neg h2, if_neg h1, if_neg h1]

/-- Block list after an allocation that splits block `b`. -/
theorem liveBlocks_split (m : MemoryManager) (p : Process) (b : Nat)
    (hb : b < m.block_count) :
    liveBlocks (assign_block (split_block m p.size b) p b).2.1 =
      (liveBlocks m).take b ++
        [⟨(m.blocks b).start_address, p.size, false, p.id⟩,
          ⟨(m.blocks b).start_address + p.size, (m.blocks b).size - p.size, true, -1⟩] ++
        (liveBlocks m).drop (b + 1) := by
  apply List.ext_getElem?
  intro j
  have hcount : (assign_block (split_block m p.size b) p b).2.1.block_count =
      m.block_count + 1 := rfl
  rw [liveBlocks_getElem?, hcount, assign_split_apply m p b j hb]
  have hlen : ((liveBlocks m).take b).length = b := by
    rw [List.length_take, liveBlocks_length]
    omega
  have hlen2 : ∀ x y : MemoryBlock, ((liveBlocks m).take b ++ [x, y]).length = b + 2 := by
    intro x y
    rw [List.length_append, hlen]
    rfl
  by_cases h1 : j < b
  · rw [List.getElem?_append_left (by rw [hlen2]; omega),
      List.getElem?_append_left (by omega), List.getElem?_take, if_pos h1,
      liveBlocks_getElem?, if_pos (by omega), if_pos (by omega), if_pos (by omega)]
  · rw [if_neg h1]
    by_cases h2 : j = b
    · subst h2
      rw [List.getElem?_append_left (by rw [hlen2]; omega),
        List.getElem?_append_right (by omega), hlen, Nat.sub_self, if_pos (by omega),
        if_pos rfl]
      rfl
    · rw [if_neg h2]
      by_cases h3 : j = b + 1
      · subst h3
        rw [List.getElem?_append_left (by rw [hlen2]; omega),
          List.getElem?_append_right (by omega), hlen, if_pos (by omega), if_pos rfl]
        have : b + 1 - b = 1 := by omega
        rw [this]
        rfl
      · rw [if_neg h3, List.getElem?_append_right (by rw [hlen2]; omega), hlen2,
          List.getElem?_drop, liveBlocks_getElem?]
        have h5 : b + 1 + (j - (b + 2)) = j - 1 := by omega
        rw [h5]
        by_cases h6 : j < m.block_count + 1
        · rw [if_pos h6, if_pos (by omega), if_pos (by omega)]
        · rw [if_neg h6, if_neg (by omega)]

/-- Block list after an allocation that takes block `b` whole. -/
theorem liveBlocks_assign (m : MemoryManager) (p : Process) (b : Nat) :
    liveBlocks (assign_block m p b).2.1 =
      (liveBlocks m).set b { m.blocks b with is_free := false, process_id := p.id } := by
  apply List.ext_getElem?
  intro j
  have hcount : (assign_block m p b).2.1.block_count = m.block_count := rfl
  rw [liveBlocks_getElem?, hcount, assign_block_apply, List.getElem?_set, liveBlocks_length,
    liveBlocks_getElem?]
  by_cases h1 : b = j
  · subst h1
    simp
  · have h2 : ¬ j = b := fun h => h1 h.symm
    rw [if_neg h1, if_neg h2]

/-! ## The coalescing loop of `deallocate_memory` -/

theorem find_adjacent_free_none (m : MemoryManager) (n : Nat) : ∀ i : Nat,
    find_adjacent_free m n i = none →
    ∀ j, i ≤ j → j < i + n →
      ¬ ((m.blocks j).is_free = true ∧ (m.blocks (j + 1)).is_free = true) := by
  induction n with
  | zero =>
    intro i _ j h1 h2
    omega
  | succ n ih =>
    intro i h j h1 h2
    rw [find_adjacent_free] at h
    split_ifs at h with hc
    simp only [Bool.and_eq_true] at hc
    by_cases hji : j = i
    · rw [hji]
      exact hc
    · exact ih (i + 1) h j (by omega) (by omega)

theorem find_adjacent_free_some (m : MemoryManager) (n : Nat) : ∀ i r : Nat,
    find_adjacent_free m n i = some r →
    i ≤ r ∧ r < i + n ∧
      ((m.blocks r).is_free = true ∧ (m.blocks (r + 1)).is_free = true) ∧
      ∀ j, i ≤ j → j < r →
        ¬ ((m.blocks j).is_free = true ∧ (m.blocks (j + 1)).is_free = true) := by
  induction n with
  | zero =>
    intro i r h
    simp [find_adjacent_free] at h
  | succ n ih =>
    intro i r h
    rw [find_adjacent_free] at h
    split_ifs at h with hc
    · simp only [Bool.and_eq_true] at hc
      have hr : i = r := by simpa using h
      subst hr
      refine ⟨le_refl _, by omega, hc, ?_⟩
      intro j h1 h2
      omega
    · simp only [Bool.and_eq_true] at hc
      obtain ⟨h1, h2, h3, h4⟩ := ih (i + 1) r h
      refine ⟨by omega, by omega, h3, ?_⟩
      intro j hj1 hj2
      by_cases hji : j = i
      · rw [hji]
        exact hc
      · exact h4 j (by omega) hj2

/-- With a budget above `block_count` the `do ... while (merged)` loop stops, and it
stops in a state without adjacent free blocks. -/
theorem coalesce_restart_terminates (fuel : Nat) :
    ∀ (m : MemoryManager) (ps : List Process) (k : Nat), m.block_count < fuel →
      ∃ m' ps', coalesce_restart fuel m ps k = some (m', ps') ∧ NoAdjacentFree m' := by
  induction fuel with
  | zero =>
    intro m ps k h
    omega
  | succ fuel ih =>
    intro m ps k h
    rw [coalesce_restart]
    cases hscan : find_adjacent_free m (m.block_count - 1) 0 with
    | none =>
      refine ⟨m, ps, rfl, ?_⟩
      intro i hi
      exact find_adjacent_free_none m _ 0 hscan i (Nat.zero_le _) (by omega)
    | some i =>
      have hi := (find_adjacent_free_some m _ 0 i hscan).2.1
      have hcount : (merge_blocks m i).block_count = m.block_count - 1 := rfl
      exact ih (merge_blocks m i) _ k (by omega)

/-- C5: for a process whose `block_index` is a valid block index, and with any step
budget above `block_count`, `deallocate_memory` returns (its coalescing loop
terminates), and in the manager it returns no two adjacent live blocks are both free;
this holds for every manager state, also one that already contains adjacent free
blocks. -/
theorem C5_deallocate_terminates_without_adjacent_free (fuel : Nat) (m : MemoryManager)
    (ps : List Process) (k : Nat) (p : Process) (hp : ps[k]? = some p)
    (hidx : 0 ≤ p.block_index ∧ p.block_index < (m.block_count : Int))
    (hfuel : m.block_count < fuel) :
    ∃ m' ps', deallocate_memory fuel m ps k = some (m', ps') ∧ NoAdjacentFree m' := by
  unfold deallocate_memory
  rw [hp]
  have h1 : ¬ p.block_index = -1 := by omega
  have h2 : ¬ p.block_index < 0 := by omega
  simp only [h1, h2, if_false]
  exact coalesce_restart_terminates fuel _ _ k hfuel

/-- Deallocation in a list that already holds two adjacent free blocks returns and
leaves no adjacent free blocks. -/
theorem C5_deallocate_terminates_without_adjacent_free_witness :
    ∃ m' ps',
      deallocate_memory 5
        (managerOf 100 70
          [⟨0, 20, true, -1⟩, ⟨20, 30, true, -1⟩, ⟨50, 30, false, 2⟩, ⟨80, 20, true, -1⟩]
          .WORST_FIT)
        [⟨1, 50, .PROCESS_TERMINATED, -1⟩, ⟨2, 30, .PROCESS_RUNNING, 2⟩] 1 = some (m', ps') ∧
      NoAdjacentFree m' :=
  C5_deallocate_terminates_without_adjacent_free 5
    (managerOf 100 70
      [⟨0, 20, true, -1⟩, ⟨20, 30, true, -1⟩, ⟨50, 30, false, 2⟩, ⟨80, 20, true, -1⟩]
      .WORST_FIT)
    [⟨1, 50, .PROCESS_TERMINATED, -1⟩, ⟨2, 30, .PROCESS_RUNNING, 2⟩] 1
    ⟨2, 30, .PROCESS_RUNNING, 2⟩ rfl (by decide) (by decide)

/-! ## The tiling invariant -/

theorem split_block_start (m : MemoryManager) (size : Int) (b j : Nat)
    (hb : b < m.block_count) :
    ((split_block m size b).blocks j).start_address =
      if j ≤ b then (m.blocks j).start_address
      else if j = b + 1 then (m.blocks b).start_address + size
      else if j ≤ m.block_count then (m.blocks (j - 1)).start_address
      else (m.blocks j).start_address := by
  rw [split_block_apply m size b j hb]
  split_ifs <;> first | rfl | (subst_vars; rfl) | (exfalso; omega)

theorem split_block_size (m : MemoryManager) (size : Int) (b j : Nat)
    (hb : b < m.block_count) :
    ((split_block m size b).blocks j).size =
      if j < b then (m.blocks j).size
      else if j = b then size
      else if j = b + 1 then (m.blocks b).size - size
      else if j ≤ m.block_count then (m.blocks (j - 1)).size
      else (m.blocks j).size := by
  rw [split_block_apply m size b j hb]
  split_ifs <;> rfl

theorem merge_blocks_start (m : MemoryManager) (i j : Nat) (hi : i + 1 < m.block_count) :
    ((merge_blocks m i).blocks j).start_address =
      if j ≤ i then (m.blocks j).start_address
      else if j + 1 < m.block_count then (m.blocks (j + 1)).start_address
      else (m.blocks j).start_address := by
  rw [merge_blocks_apply m i j hi]
  split_ifs <;> first | rfl | (subst_vars; rfl) | (exfalso; omega)

theorem merge_blocks_size (m : MemoryManager) (i j : Nat) (hi : i + 1 < m.block_count) :
    ((merge_blocks m i).blocks j).size =
      if j < i then (m.blocks j).size
      else if j = i then (m.blocks i).size + (m.blocks (i + 1)).size
      else if j + 1 < m.block_count then (m.blocks (j + 1)).size
      else (m.blocks j).size := by
  rw [merge_blocks_apply m i j hi]
  split_ifs <;> rfl

/-- A manager with the same counters and the same start addresses and sizes tiles the
memory as well. -/
theorem Tiles_of_same_layout (m m' : MemoryManager) (hc : m'.block_count = m.block_count)
    (ht : m'.total_size = m.total_size)
    (hs : ∀ j, (m'.blocks j).start_address = (m.blocks j).start_address ∧
      (m'.blocks j).size = (m.blocks j).size)
    (h : Tiles m) : Tiles m' := by
  obtain ⟨h0, hstart, hpos, hadj, hlast⟩ := h
  refine ⟨by omega, ?_, ?_, ?_, ?_⟩
  · rw [(hs 0).1]
    exact hstart
  · intro j hj
    rw [(hs j).2]
    exact hpos j (by omega)
  · intro j hj
    rw [(hs j).1, (hs j).2, (hs (j + 1)).1]
    exact hadj j (by omega)
  · rw [hc, ht, (hs _).1, (hs _).2]
    exact hlast

theorem Tiles_split (m : MemoryManager) (size : Int) (b : Nat) (hb : b < m.block_count)
    (hsize : 0 < size) (hgt : (m.blocks b).size > size + 10) (h : Tiles m) :
    Tiles (split_block m size b) := by
  obtain ⟨h0, hstart, hpos, hadj, hlast⟩ := h
  have hcount : (split_block m size b).block_count = m.block_count + 1 := rfl
  have htotal : (split_block m size b).total_size = m.total_size := rfl
  refine ⟨by omega, ?_, ?_, ?_, ?_⟩
  · rw [split_block_start m size b 0 hb, if_pos (Nat.zero_le _)]
    exact hstart
  · intro j hj
    rw [split_block_size m size b j hb]
    have a1 := hpos j
    have a2 := hpos (j - 1)
    split_ifs <;> omega
  · intro j hj
    rw [hcount] at hj
    rw [split_block_start m size b j hb, split_block_size m size b j hb,
      split_block_start m size b (j + 1) hb, Nat.add_sub_cancel]
    have a1 := hadj j
    have a2 := hadj b
    have a3 : 1 ≤ j → j < m.block_count →
        (m.blocks (j - 1)).start_address + (m.blocks (j - 1)).size =
          (m.blocks j).start_address := by
      intro h1 h2
      have := hadj (j - 1) (by omega)
      rw [Nat.sub_add_cancel h1] at this
      exact this
    split_ifs <;> first | omega | (subst_vars; omega)
  · rw [hcount, htotal, Nat.add_sub_cancel, split_block_start m size b _ hb,
      split_block_size m size b _ hb]
    have a1 : m.block_count = b + 1 → (m.blocks b).start_address + (m.blocks b).size =
        m.total_size := by
      intro h1
      have h2 : m.block_count - 1 = b := by omega
      rw [h2] at hlast
      exact hlast
    split_ifs <;> omega

theorem Tiles_merge (m : MemoryManager) (i : Nat) (hi : i + 1 < m.block_count)
    (h : Tiles m) : Tiles (merge_blocks m i) := by
  obtain ⟨h0, hstart, hpos, hadj, hlast⟩ := h
  have hcount : (merge_blocks m i).block_count = m.block_count - 1 := rfl
  have htotal : (merge_blocks m i).total_size = m.total_size := rfl
  refine ⟨by omega, ?_, ?_, ?_, ?_⟩
  · rw [merge_blocks_start m i 0 hi, if_pos (Nat.zero_le _)]
    exact hstart
  · intro j hj
    rw [merge_blocks_size m i j hi]
    have a1 := hpos j
    have a2 := hpos (j + 1)
    have a3 := hpos i
    have a4 := hpos (i + 1)
    split_ifs <;> omega
  · intro j hj
    rw [hcount] at hj
    rw [merge_blocks_start m i j hi, merge_blocks_size m i j hi,
      merge_blocks_start m i (j + 1) hi]
    have a1 := hadj j
    have a2 := hadj (j + 1)
    have a3 := hadj i
    have a4 := hadj (i + 1)
    split_ifs <;> first | omega | (subst_vars; omega)
  · rw [hcount, htotal, merge_blocks_start m i _ hi, merge_blocks_size m i _ hi]
    have a1 := hadj i
    have a2 : m.block_count - 1 = i + 1 → (m.blocks (i + 1)).start_address +
        (m.blocks (i + 1)).size = m.total_size := by
      intro h1
      rw [h1] at hlast
      exact hlast
    have a3 : m.block_count - 1 - 1 + 1 = m.block_count - 1 := by omega
    rw [a3]
    split_ifs <;> first | omega | (subst_vars; omega)

theorem Tiles_assign (m : MemoryManager) (p : Process) (b : Nat) (h : Tiles m) :
    Tiles (assign_block m p b).2.1 := by
  refine Tiles_of_same_layout m _ rfl rfl ?_ h
  intro j
  rw [assign_block_apply]
  split_ifs with hj
  · rw [hj]
    exact ⟨rfl, rfl⟩
  · exact ⟨rfl, rfl⟩

theorem Tiles_allocate (m : MemoryManager) (p : Process) (hsize : 0 < p.size) (h : Tiles m) :
    Tiles (allocate_memory m p).2.1 ∧ (allocate_memory m p).2.1.total_size = m.total_size := by
  rcases allocate_memory_cases m p with ⟨h1, _⟩ | ⟨b, _, h2, _, h3 | h3⟩
  · rw [h1]
    exact ⟨h, rfl⟩
  · rw [h3.2.2]
    exact ⟨Tiles_assign _ p b (Tiles_split m p.size b h2.1 hsize h3.1 h), rfl⟩
  · rw [h3.2]
    exact ⟨Tiles_assign m p b h, rfl⟩

theorem Tiles_coalesce_restart (fuel : Nat) :
    ∀ (m m' : MemoryManager) (ps ps' : List Process) (k : Nat),
      coalesce_restart fuel m ps k = some (m', ps') → Tiles m →
      Tiles m' ∧ m'.total_size = m.total_size := by
  induction fuel with
  | zero =>
    intro m m' ps ps' k hrun
    simp [coalesce_restart] at hrun
  | succ fuel ih =>
    intro m m' ps ps' k hrun h
    rw [coalesce_restart] at hrun
    cases hscan : find_adjacent_free m (m.block_count - 1) 0 with
    | none =>
      rw [hscan] at hrun
      simp only [Option.some.injEq, Prod.mk.injEq] at hrun
      rw [← hrun.1]
      exact ⟨h, rfl⟩
    | some i =>
      rw [hscan] at hrun
      have hi := (find_adjacent_free_some m _ 0 i hscan).2.1
      have hstep := ih (merge_blocks m i) m' _ ps' k hrun (Tiles_merge m i (by omega) h)
      exact ⟨hstep.1, hstep.2⟩

theorem Tiles_deallocate (fuel : Nat) (m m' : MemoryManager) (ps ps' : List Process)
    (k : Nat) (hrun : deallocate_memory fuel m ps k = some (m', ps')) (h : Tiles m) :
    Tiles m' ∧ m'.total_size = m.total_size := by
  unfold deallocate_memory at hrun
  cases hp : ps[k]? with
  | none =>
    rw [hp] at hrun
    simp at hrun
  | some p =>
    rw [hp] at hrun
    simp only at hrun
    split_ifs at hrun with h1 h2
    · simp only [Option.some.injEq, Prod.mk.injEq] at hrun
      rw [← hrun.1]
      exact ⟨h, rfl⟩
    · apply Tiles_coalesce_restart fuel _ m' _ ps' k hrun
      refine Tiles_of_same_layout m _ rfl rfl ?_ h
      intro j
      simp only [release_block, write]
      split_ifs with hj
      · rw [hj]
        exact ⟨rfl, rfl⟩
      · exact ⟨rfl, rfl⟩

theorem Tiles_coalesce_loop (fuel : Nat) :
    ∀ (m m' : MemoryManager) (i : Nat) (merged merged' : Bool),
      coalesce_loop fuel m i merged = some (merged', m') → Tiles m →
      Tiles m' ∧ m'.total_size = m.total_size := by
  induction fuel with
  | zero =>
    intro m m' i merged merged' hrun
    simp [coalesce_loop] at hrun
  | succ fuel ih =>
    intro m m' i merged merged' hrun h
    rw [coalesce_loop] at hrun
    split_ifs at hrun with h1 h2
    · have hstep := ih (merge_blocks m i) m' i true merged' hrun (Tiles_merge m i h1 h)
      exact ⟨hstep.1, hstep.2⟩
    · exact ih m m' (i + 1) merged merged' hrun h
    · simp only [Option.some.injEq, Prod.mk.injEq] at hrun
      rw [← hrun.2]
      exact ⟨h, rfl⟩

theorem Tiles_coalesce_memory (fuel : Nat) (m m' : MemoryManager) (ps ps' : List Process)
    (merged : Bool) (hrun : coalesce_memory fuel m ps = some (merged, m', ps'))
    (h : Tiles m) : Tiles m' ∧ m'.total_size = m.total_size := by
  unfold coalesce_memory at hrun
  cases hloop : coalesce_loop fuel m 0 false with
  | none =>
    rw [hloop] at hrun
    simp at hrun
  | some r =>
    rw [hloop] at hrun
    simp only [Option.some.injEq, Prod.mk.injEq] at hrun
    have hr : r = (merged, m') := by
      rw [← hrun.1, ← hrun.2.1]
    rw [hr] at hloop
    exact Tiles_coalesce_loop fuel m m' 0 false merged hloop h

theorem Tiles_fresh (total_size : Int) (strategy : AllocationStrategy)
    (h : 0 < total_size) : Tiles (initialize_memory_manager total_size strategy) := by
  refine ⟨Nat.one_pos, rfl, ?_, ?_, ?_⟩
  · intro i hi
    have hi0 : i = 0 := by
      have : i < 1 := hi
      omega
    rw [hi0]
    exact h
  · intro i hi
    have : i + 1 < 1 := hi
    omega
  · show (0 : Int) + total_size = total_size
    omega

/-! ## Worst fit -/

theorem find_worst_fit_loop_inv (m : MemoryManager) (size : Int) (n : Nat) :
    ∀ (i : Nat) (worst_index largest_diff : Int),
      WorstInv m size i worst_index largest_diff →
      ∃ d, WorstInv m size (i + n)
        (find_worst_fit_loop m size n i worst_index largest_diff) d := by
  induction n with
  | zero =>
    intro i worst_index largest_diff hinv
    exact ⟨largest_diff, hinv⟩
  | succ n ih =>
    intro i worst_index largest_diff hinv
    have hidx : i + (n + 1) = (i + 1) + n := by omega
    rw [hidx]
    by_cases hc : (m.blocks i).is_free = true ∧ (m.blocks i).size ≥ size
    · by_cases hd : (m.blocks i).size - size > largest_diff
      · have hstep : find_worst_fit_loop m size (n + 1) i worst_index largest_diff =
            find_worst_fit_loop m size n (i + 1) (i : Int) ((m.blocks i).size - size) := by
          rw [find_worst_fit_loop, if_pos, if_pos hd]
          simpa [Bool.and_eq_true] using hc
        rw [hstep]
        apply ih (i + 1)
        right
        refine ⟨i, rfl, by omega, hc, rfl, ?_, ?_⟩
        · intro j hj hf
          by_cases hji : j = i
          · rw [hji]
          · rcases hinv with ⟨_, _, h3⟩ | ⟨b, _, _, _, h4, h5, _⟩
            · exact absurd hf (h3 j (by omega))
            · have := h5 j (by omega) hf
              omega
        · intro j hj hf
          rcases hinv with ⟨_, _, h3⟩ | ⟨b, _, _, _, h4, h5, _⟩
          · exact absurd hf (h3 j hj)
          · have := h5 j hj hf
            omega
      · have hstep : find_worst_fit_loop m size (n + 1) i worst_index largest_diff =
            find_worst_fit_loop m size n (i + 1) worst_index largest_diff := by
          rw [find_worst_fit_loop, if_pos, if_neg hd]
          simpa [Bool.and_eq_true] using hc
        rw [hstep]
        apply ih (i + 1)
        rcases hinv with ⟨_, h2, _⟩ | ⟨b, h1, h2, h3, h4, h5, h6⟩
        · have := hc.2
          omega
        · right
          refine ⟨b, h1, by omega, h3, h4, ?_, h6⟩
          intro j hj hf
          by_cases hji : j = i
          · rw [hji]
            omega
          · exact h5 j (by omega) hf
    · have hstep : find_worst_fit_loop m size (n + 1) i worst_index largest_diff =
          find_worst_fit_loop m size n (i + 1) worst_index largest_diff := by
        rw [find_worst_fit_loop, if_neg]
        simpa [Bool.and_eq_true] using hc
      rw [hstep]
      apply ih (i + 1)
      rcases hinv with ⟨h1, h2, h3⟩ | ⟨b, h1, h2, h3, h4, h5, h6⟩
      · left
        refine ⟨h1, h2, ?_⟩
        intro j hj
        by_cases hji : j = i
        · rw [hji]
          exact hc
        · exact h3 j (by omega)
      · right
        refine ⟨b, h1, by omega, h3, h4, ?_, h6⟩
        intro j hj hf
        by_cases hji : j = i
        · rw [hji] at hf
          exact absurd hf hc
        · exact h5 j (by omega) hf

theorem find_worst_fit_spec (m : MemoryManager) (size : Int) :
    (find_worst_fit m size = -1 ∧ ∀ j, ¬ Fits m size j) ∨
    (∃ b : Nat, find_worst_fit m size = (b : Int) ∧ Fits m size b ∧
      (∀ j, Fits m size j → (m.blocks j).size ≤ (m.blocks b).size) ∧
      (∀ j, j < b → Fits m size j → (m.blocks j).size < (m.blocks b).size)) := by
  have h0 : WorstInv m size 0 (-1) (-1) := by
    left
    refine ⟨rfl, rfl, ?_⟩
    intro j hj
    omega
  obtain ⟨d, hd⟩ := find_worst_fit_loop_inv m size m.block_count 0 (-1) (-1) h0
  rw [Nat.zero_add] at hd
  rcases hd with ⟨h1, _, h3⟩ | ⟨b, h1, h2, h3, _, h5, h6⟩
  · left
    exact ⟨h1, fun j hj => h3 j hj.1 hj.2⟩
  · right
    exact ⟨b, h1, ⟨h2, h3⟩, fun j hj => h5 j hj.1 hj.2, fun j hj hf => h6 j hj hf.2⟩

/-- C11: for a positive requested size, `find_worst_fit` returns `-1` or a slot number;
it returns `-1` exactly when no live free block is large enough, and it returns `i`
exactly when block `i` is live, free and large enough, its size is the maximum over all
such blocks, and every such block at a lower index is strictly smaller.  On
`[free 100][used 50][free 30][free 200]` with request 30 it returns index 3, the free
block of size 200. -/
theorem C11_find_worst_fit_maximal_first :
    (∀ (m : MemoryManager) (size : Int), 0 < size →
      (find_worst_fit m size = -1 ∨ ∃ i : Nat, find_worst_fit m size = (i : Int)) ∧
      (find_worst_fit m size = -1 ↔ ∀ j, ¬ Fits m size j) ∧
      (∀ i : Nat, find_worst_fit m size = (i : Int) ↔
        (Fits m size i ∧
          (∀ j, Fits m size j → (m.blocks j).size ≤ (m.blocks i).size) ∧
          (∀ j, j < i → Fits m size j → (m.blocks j).size < (m.blocks i).size)))) ∧
    (find_worst_fit (strategyExample .WORST_FIT) 30 = 3 ∧
      (strategyExample .WORST_FIT).blocks 3 = ⟨180, 200, true, -1⟩) := by
  refine ⟨?_, by decide, by decide⟩
  intro m size _
  rcases find_worst_fit_spec m size with ⟨h1, h2⟩ | ⟨b, h1, h2, h3, h4⟩
  · refine ⟨Or.inl h1, ⟨fun _ => h2, fun _ => h1⟩, ?_⟩
    intro i
    constructor
    · intro hi
      rw [h1] at hi
      omega
    · intro hi
      exact absurd hi.1 (h2 i)
  · refine ⟨Or.inr ⟨b, h1⟩, ⟨?_, ?_⟩, ?_⟩
    · intro hneg
      rw [h1] at hneg
      omega
    · intro hnone
      exact absurd h2 (hnone b)
    · intro i
      rw [h1]
      constructor
      · intro hi
        have : b = i := by omega
        subst this
        exact ⟨h2, h3, h4⟩
      · intro hi
        have e1 := h3 i hi.1
        have e2 := hi.2.1 b h2
        have h5 : ¬ b < i := by
          intro hlt
          have := hi.2.2 b hlt h2
          omega
        have h6 : ¬ i < b := by
          intro hlt
          have := h4 i hlt hi.1
          omega
        have : b = i := by omega
        rw [this]

/-- On the strategy example with request 30, worst fit returns a slot number rather
than `-1`, since a block fits. -/
theorem C11_find_worst_fit_maximal_first_witness :
    (0 : Int) < 30 ∧
    (find_worst_fit (strategyExample .WORST_FIT) 30 = -1 ↔
      ∀ j, ¬ Fits (strategyExample .WORST_FIT) 30 j) :=
  ⟨by decide,
    (C11_find_worst_fit_maximal_first.1 (strategyExample .WORST_FIT) 30 (by decide)).2.1⟩

/-! ## `coalesce_memory` -/

theorem merge_blocks_is_free (m : MemoryManager) (i j : Nat) (hi : i + 1 < m.block_count) :
    ((merge_blocks m i).blocks j).is_free =
      if j ≤ i then (m.blocks j).is_free
      else if j + 1 < m.block_count then (m.blocks (j + 1)).is_free
      else (m.blocks j).is_free := by
  rw [merge_blocks_apply m i j hi]
  split_ifs <;> first | rfl | (subst_vars; rfl) | (exfalso; omega)

/-- With a budget above `block_count - i` the loop of `coalesce_memory` started at
index `i` returns; if no adjacent free pair lies below `i` on entry, none is left
anywhere on exit. -/
theorem coalesce_loop_terminates (fuel : Nat) :
    ∀ (m : MemoryManager) (i : Nat) (merged : Bool), m.block_count - i < fuel →
      (∀ j, j < i → j + 1 < m.block_count →
        ¬ ((m.blocks j).is_free = true ∧ (m.blocks (j + 1)).is_free = true)) →
      ∃ merged' m', coalesce_loop fuel m i merged = some (merged', m') ∧
        NoAdjacentFree m' ∧ m'.block_count ≤ m.block_count := by
  induction fuel with
  | zero =>
    intro m i merged h
    omega
  | succ fuel ih =>
    intro m i merged hfuel hinv
    rw [coalesce_loop]
    by_cases h1 : i + 1 < m.block_count
    · rw [if_pos h1]
      by_cases h2 : ((m.blocks i).is_free && (m.blocks (i + 1)).is_free) = true
      · rw [if_pos h2]
        have hcount : (merge_blocks m i).block_count = m.block_count - 1 := rfl
        obtain ⟨b, m', h3, h4, h5⟩ := ih (merge_blocks m i) i true (by omega) (by
          intro j hj hj2
          rw [merge_blocks_is_free m i j h1, merge_blocks_is_free m i (j + 1) h1,
            if_pos (by omega), if_pos (by omega)]
          exact hinv j hj (by omega))
        exact ⟨b, m', h3, h4, by omega⟩
      · rw [if_neg h2]
        simp only [Bool.and_eq_true] at h2
        obtain ⟨b, m', h3, h4, h5⟩ := ih m (i + 1) merged (by omega) (by
          intro j hj hj2
          by_cases hji : j = i
          · rw [hji]
            exact h2
          · exact hinv j (by omega) hj2)
        exact ⟨b, m', h3, h4, h5⟩
    · rw [if_neg h1]
      refine ⟨merged, m, rfl, ?_, le_refl _⟩
      intro j hj
      exact hinv j (by omega) hj

/-- On a table without adjacent free blocks the loop of `coalesce_memory` changes
nothing and keeps the flag it was started with. -/
theorem coalesce_loop_fixed (fuel : Nat) :
    ∀ (m : MemoryManager) (i : Nat) (merged : Bool), m.block_count - i < fuel →
      NoAdjacentFree m → coalesce_loop fuel m i merged = some (merged, m) := by
  induction fuel with
  | zero =>
    intro m i merged h
    omega
  | succ fuel ih =>
    intro m i merged hfuel hnone
    rw [coalesce_loop]
    by_cases h1 : i + 1 < m.block_count
    · rw [if_pos h1]
      have h2 : ¬ ((m.blocks i).is_free && (m.blocks (i + 1)).is_free) = true := by
        simp only [Bool.and_eq_true]
        exact hnone i h1
      rw [if_neg h2]
      exact ih m (i + 1) merged (by omega) hnone
    · rw [if_neg h1]

/-- C13: with any step budget above `block_count`, a call of `coalesce_memory` returns;
in the manager it returns no two adjacent live blocks are both free, and a second call
on that manager returns false and the very same manager (same `block_count`, same
blocks).  The process array is never changed. -/
theorem C13_coalesce_memory_idempotent (fuel : Nat) (m : MemoryManager) (ps : List Process)
    (hfuel : m.block_count < fuel) :
    ∃ merged m1, coalesce_memory fuel m ps = some (merged, m1, ps) ∧
      NoAdjacentFree m1 ∧ coalesce_memory fuel m1 ps = some (false, m1, ps) := by
  obtain ⟨b, m1, h1, h2, h3⟩ := coalesce_loop_terminates fuel m 0 false (by omega) (by
    intro j hj
    omega)
  refine ⟨b, m1, ?_, h2, ?_⟩
  · unfold coalesce_memory
    rw [h1]
  · unfold coalesce_memory
    rw [coalesce_loop_fixed fuel m1 0 false (by omega) h2]

/-- On `[free 20][free 30][used 50][free 10][free 5]` the first call merges and the
second call reports no merge. -/
theorem C13_coalesce_memory_idempotent_witness :
    ∃ merged m1,
      coalesce_memory 6
        (managerOf 115 65
          [⟨0, 20, true, -1⟩, ⟨20, 30, true, -1⟩, ⟨50, 50, false, 1⟩, ⟨100, 10, true, -1⟩,
            ⟨110, 5, true, -1⟩] .FIRST_FIT) [] = some (merged, m1, []) ∧
      NoAdjacentFree m1 ∧ coalesce_memory 6 m1 [] = some (false, m1, []) :=
  C13_coalesce_memory_idempotent 6
    (managerOf 115 65
      [⟨0, 20, true, -1⟩, ⟨20, 30, true, -1⟩, ⟨50, 50, false, 1⟩, ⟨100, 10, true, -1⟩,
        ⟨110, 5, true, -1⟩] .FIRST_FIT) [] (by decide)

/-- C14: in `[free 20][free 30][used 50 by process 1]` process 1 holds index 2 and
the references are consistent.  `coalesce_memory` merges blocks 0 and 1, removes slot
1 and returns true, leaving `[free 50][used 50 by process 1]`; the process array is
returned as it was, so process 1 still holds index 2, past the two remaining blocks. -/
theorem C14_coalesce_memory_leaves_references_stale :
    observe (managerOf 100 50
        [⟨0, 20, true, -1⟩, ⟨20, 30, true, -1⟩, ⟨50, 50, false, 1⟩] .FIRST_FIT,
      [⟨1, 50, .PROCESS_RUNNING, 2⟩]) =
      ⟨100, 50, 50, [⟨0, 20, true, -1⟩, ⟨20, 30, true, -1⟩, ⟨50, 50, false, 1⟩],
        [⟨1, 50, .PROCESS_RUNNING, 2⟩], true⟩ ∧
    (coalesce_memory 4 (managerOf 100 50
        [⟨0, 20, true, -1⟩, ⟨20, 30, true, -1⟩, ⟨50, 50, false, 1⟩] .FIRST_FIT)
      [⟨1, 50, .PROCESS_RUNNING, 2⟩]).map (fun r => (r.1, observe r.2)) =
      some (true, ⟨100, 50, 50, [⟨0, 50, true, -1⟩, ⟨50, 50, false, 1⟩],
        [⟨1, 50, .PROCESS_RUNNING, 2⟩], false⟩) := by
  decide

/-! ## Both coalescing loops compute the coalesced block list -/

theorem sizeSum_nil : sizeSum [] = 0 := rfl

theorem sizeSum_cons (b : MemoryBlock) (l : List MemoryBlock) :
    sizeSum (b :: l) = b.size + sizeSum l := by
  simp [sizeSum]

/-- The first run of a nonempty list starts with its first block, and the shape of
the runs depends on that block only through its free flag. -/
theorem runs_cons (b : MemoryBlock) (rest : List MemoryBlock) :
    ∃ r rs, runs (b :: rest) = (b :: r) :: rs ∧
      ∀ b' : MemoryBlock, b'.is_free = b.is_free → runs (b' :: rest) = (b' :: r) :: rs := by
  cases rest with
  | nil => exact ⟨[], [], rfl, fun _ _ => rfl⟩
  | cons c rest' =>
    obtain ⟨r, rs, h1, _⟩ := runs_cons c rest'
    by_cases hc : (b.is_free && c.is_free) = true
    · refine ⟨c :: r, rs, ?_, ?_⟩
      · rw [runs, h1]
        simp only [hc, if_true]
      · intro b' hb'
        rw [runs, h1]
        simp only [hb', hc, if_true]
    · refine ⟨[], (c :: r) :: rs, ?_, ?_⟩
      · rw [runs, h1]
        simp [hc]
      · intro b' hb'
        rw [runs, h1]
        simp [hb', hc]

/-- Two free blocks at the head coalesce like their merge. -/
theorem coalesceRuns_merge_head (b c : MemoryBlock) (rest : List MemoryBlock)
    (hb : b.is_free = true) (hc : c.is_free = true) :
    coalesceRuns (b :: c :: rest) =
      coalesceRuns ({ b with size := b.size + c.size } :: rest) := by
  obtain ⟨r, rs, h1, h2⟩ := runs_cons c rest
  have h3 := h2 { b with size := b.size + c.size } (by rw [hc]; exact hb)
  unfold coalesceRuns
  rw [h3, runs, h1]
  simp only [hb, hc, Bool.and_self, if_true, mergeAll, sizeSum_cons]
  rw [Int.add_assoc]

/-- A head block that is not free, or whose successor is not free, is kept as it is. -/
theorem coalesceRuns_keep_head (b c : MemoryBlock) (rest : List MemoryBlock)
    (h : ¬ (b.is_free = true ∧ c.is_free = true)) :
    coalesceRuns (b :: c :: rest) = b :: coalesceRuns (c :: rest) := by
  obtain ⟨r, rs, h1, _⟩ := runs_cons c rest
  have hc : ¬ (b.is_free && c.is_free) = true := by
    simpa [Bool.and_eq_true] using h
  unfold coalesceRuns
  rw [runs, h1]
  simp [hc, mergeAll, sizeSum_nil]

theorem coalesceRuns_single (b : MemoryBlock) : coalesceRuns [b] = [b] := by
  simp [coalesceRuns, runs, mergeAll, sizeSum_nil]

theorem coalesceRuns_nil : coalesceRuns [] = [] := rfl

theorem drop_of_getElem? (l : List MemoryBlock) (i : Nat) (x : MemoryBlock)
    (h : l[i]? = some x) : l.drop i = x :: l.drop (i + 1) := by
  obtain ⟨hi, hx⟩ := List.getElem?_eq_some.mp h
  rw [List.drop_eq_getElem_cons hi, hx]

theorem take_succ_of_getElem? (l : List MemoryBlock) (i : Nat) (x : MemoryBlock)
    (h : l[i]? = some x) : l.take (i + 1) = l.take i ++ [x] := by
  rw [List.take_succ, h]
  rfl

theorem drop_of_getElem?_none (l : List MemoryBlock) (i : Nat) (h : l[i]? = none) :
    l.drop i = [] := by
  rw [List.drop_eq_nil_iff]
  exact List.getElem?_eq_none_iff.mp h

theorem take_of_getElem?_none (l : List MemoryBlock) (i : Nat) (h : l[i]? = none) :
    l.take i = l := by
  rw [List.take_eq_self_iff]
  exact List.getElem?_eq_none_iff.mp h

/-- Moving the split point one block to the right does not change the result when
blocks `i` and `i+1` are not both free. -/
theorem coalesceRuns_advance (l : List MemoryBlock) (i : Nat)
    (h : ∀ x y, l[i]? = some x → l[i + 1]? = some y →
      ¬ (x.is_free = true ∧ y.is_free = true)) :
    l.take i ++ coalesceRuns (l.drop i) =
      l.take (i + 1) ++ coalesceRuns (l.drop (i + 1)) := by
  cases hx : l[i]? with
  | none =>
    have hy : l[i + 1]? = none := by
      rw [List.getElem?_eq_none_iff] at hx ⊢
      omega
    rw [drop_of_getElem?_none l i hx, drop_of_getElem?_none l (i + 1) hy,
      take_of_getElem?_none l i hx, take_of_getElem?_none l (i + 1) hy]
  | some x =>
    rw [drop_of_getElem? l i x hx, take_succ_of_getElem? l i x hx]
    cases hy : l[i + 1]? with
    | none =>
      rw [drop_of_getElem?_none l (i + 1) hy, coalesceRuns_single, coalesceRuns_nil,
        List.append_nil]
    | some y =>
      rw [drop_of_getElem? l (i + 1) y hy, coalesceRuns_keep_head x y _ (h x y hx hy)]
      simp

/-- Merging two free blocks `i` and `i+1` does not change the result from `i` on. -/
theorem coalesceRuns_merge_at (l : List MemoryBlock) (i : Nat) (x y : MemoryBlock)
    (hx : l[i]? = some x) (hy : l[i + 1]? = some y)
    (hfx : x.is_free = true) (hfy : y.is_free = true) :
    coalesceRuns (l.drop i) =
      coalesceRuns ({ x with size := x.size + y.size } :: l.drop (i + 2)) := by
  rw [drop_of_getElem? l i x hx, drop_of_getElem? l (i + 1) y hy,
    coalesceRuns_merge_head x y _ hfx hfy]

/-- Block list after the merge of blocks `i` and `i+1`. -/
theorem liveBlocks_merge (m : MemoryManager) (i : Nat) (hi : i + 1 < m.block_count) :
    liveBlocks (merge_blocks m i) =
      (liveBlocks m).take i ++
        { m.blocks i with size := (m.blocks i).size + (m.blocks (i + 1)).size } ::
          (liveBlocks m).drop (i + 2) := by
  apply List.ext_getElem?
  intro j
  have hcount : (merge_blocks m i).block_count = m.block_count - 1 := rfl
  have hlen : ((liveBlocks m).take i).length = i := by
    rw [List.length_take, liveBlocks_length]
    omega
  rw [liveBlocks_getElem?, hcount, merge_blocks_apply m i j hi]
  by_cases h1 : j < i
  · rw [List.getElem?_append_left (by omega), List.getElem?_take, if_pos h1,
      liveBlocks_getElem?, if_pos (by omega), if_pos (by omega), if_pos (by omega)]
  · rw [List.getElem?_append_right (by omega), hlen, if_neg h1]
    by_cases h2 : j = i
    · subst h2
      rw [Nat.sub_self, if_pos (by omega), if_pos rfl, List.getElem?_cons_zero]
    · have h3 : j - i = (j - i - 1) + 1 := by omega
      rw [if_neg h2, h3, List.getElem?_cons_succ, List.getElem?_drop, liveBlocks_getElem?]
      have h4 : i + 2 + (j - i - 1) = j + 1 := by omega
      rw [h4]
      by_cases h5 : j < m.block_count - 1
      · rw [if_pos h5, if_pos (by omega), if_pos (by omega)]
      · rw [if_neg h5, if_neg (by omega)]

theorem liveBlocks_pair (m : MemoryManager) (i : Nat) (x y : MemoryBlock)
    (hx : (liveBlocks m)[i]? = some x) (hy : (liveBlocks m)[i + 1]? = some y) :
    i + 1 < m.block_count ∧ x = m.blocks i ∧ y = m.blocks (i + 1) := by
  rw [liveBlocks_getElem?] at hx hy
  split_ifs at hx hy with h1 h2
  simp only [Option.some.injEq] at hx hy
  exact ⟨h2, hx.symm, hy.symm⟩

/-- When no adjacent free pair lies below `i`, coalescing keeps the blocks below `i`. -/
theorem coalesceRuns_skip (m : MemoryManager) (i : Nat) :
    (∀ j, j < i → j + 1 < m.block_count →
      ¬ ((m.blocks j).is_free = true ∧ (m.blocks (j + 1)).is_free = true)) →
    coalesceRuns (liveBlocks m) =
      (liveBlocks m).take i ++ coalesceRuns ((liveBlocks m).drop i) := by
  induction i with
  | zero =>
    intro _
    simp
  | succ i ih =>
    intro h
    rw [ih (fun j hj hj2 => h j (by omega) hj2)]
    apply coalesceRuns_advance
    intro x y hx hy
    obtain ⟨h1, hx', hy'⟩ := liveBlocks_pair m i x y hx hy
    rw [hx', hy']
    exact h i (by omega) h1

/-- A block list without adjacent free blocks is its own coalesced list. -/
theorem coalesceRuns_of_NoAdjacentFree (m : MemoryManager) (h : NoAdjacentFree m) :
    coalesceRuns (liveBlocks m) = liveBlocks m := by
  rw [coalesceRuns_skip m m.block_count (fun j _ hj => h j hj)]
  have hlen : (liveBlocks m).length ≤ m.block_count := by
    rw [liveBlocks_length]
  rw [List.drop_eq_nil_iff.mpr hlen, (List.take_eq_self_iff _).mpr hlen, coalesceRuns_nil,
    List.append_nil]

/-- Merging the first adjacent free pair does not change the coalesced list. -/
theorem coalesceRuns_merge_first (m : MemoryManager) (i : Nat) (hi : i + 1 < m.block_count)
    (hfree : (m.blocks i).is_free = true ∧ (m.blocks (i + 1)).is_free = true)
    (hfirst : ∀ j, j < i →
      ¬ ((m.blocks j).is_free = true ∧ (m.blocks (j + 1)).is_free = true)) :
    coalesceRuns (liveBlocks (merge_blocks m i)) = coalesceRuns (liveBlocks m) := by
  have hlen : ((liveBlocks m).take i).length = i := by
    rw [List.length_take, liveBlocks_length]
    omega
  have hx : (liveBlocks m)[i]? = some (m.blocks i) := by
    rw [liveBlocks_getElem?, if_pos (by omega)]
  have hy : (liveBlocks m)[i + 1]? = some (m.blocks (i + 1)) := by
    rw [liveBlocks_getElem?, if_pos hi]
  have hcount : (merge_blocks m i).block_count = m.block_count - 1 := rfl
  rw [coalesceRuns_skip m i (fun j hj _ => hfirst j hj),
    coalesceRuns_skip (merge_blocks m i) i (by
      intro j hj hj2
      rw [merge_blocks_is_free m i j hi, merge_blocks_is_free m i (j + 1) hi,
        if_pos (by omega), if_pos (by omega)]
      exact hfirst j hj),
    liveBlocks_merge m i hi, List.take_left' hlen, List.drop_left' hlen,
    coalesceRuns_merge_at (liveBlocks m) i _ _ hx hy hfree.1 hfree.2]

/-- The `do ... while (merged)` loop of `deallocate_memory` ends with the coalesced
block list. -/
theorem coalesce_restart_blocks (fuel : Nat) :
    ∀ (m m' : MemoryManager) (ps ps' : List Process) (k : Nat),
      coalesce_restart fuel m ps k = some (m', ps') →
      liveBlocks m' = coalesceRuns (liveBlocks m) := by
  induction fuel with
  | zero =>
    intro m m' ps ps' k hrun
    simp [coalesce_restart] at hrun
  | succ fuel ih =>
    intro m m' ps ps' k hrun
    rw [coalesce_restart] at hrun
    cases hscan : find_adjacent_free m (m.block_count - 1) 0 with
    | none =>
      rw [hscan] at hrun
      simp only [Option.some.injEq, Prod.mk.injEq] at hrun
      rw [← hrun.1]
      symm
      apply coalesceRuns_of_NoAdjacentFree
      intro j hj
      exact find_adjacent_free_none m _ 0 hscan j (Nat.zero_le _) (by omega)
    | some i =>
      rw [hscan] at hrun
      obtain ⟨_, h2, h3, h4⟩ := find_adjacent_free_some m _ 0 i hscan
      rw [ih (merge_blocks m i) m' _ ps' k hrun]
      exact coalesceRuns_merge_first m i (by omega) h3
        (fun j hj => h4 j (Nat.zero_le _) hj)

theorem liveBlocks_congr (m1 m2 : MemoryManager) (hc : m1.block_count = m2.block_count)
    (h : ∀ j, j < m1.block_count → m1.blocks j = m2.blocks j) :
    liveBlocks m1 = liveBlocks m2 := by
  apply List.ext_getElem?
  intro j
  rw [liveBlocks_getElem?, liveBlocks_getElem?, ← hc]
  by_cases hj : j < m1.block_count
  · rw [if_pos hj, if_pos hj, h j hj]
  · rw [if_neg hj, if_neg hj]

theorem release_block_apply (m : MemoryManager) (i j : Nat) :
    (release_block m i).blocks j =
      if j = i then { m.blocks i with is_free := true, process_id := -1 }
      else m.blocks j := by
  simp [release_block, write]

/-- The remapping loop leaves every entry whose `block_index` is at most 1 as it is. -/
theorem update_indices_keeps (i k : Nat) (n : Nat) :
    ∀ (j : Nat) (ps : List Process) (t : Nat) (q : Process),
      ps[t]? = some q → q.block_index ≤ 1 →
      (update_indices i k n j ps)[t]? = some q := by
  induction n with
  | zero =>
    intro j ps t q hq _
    exact hq
  | succ n ih =>
    intro j ps t q hq hle
    rw [update_indices]
    apply ih (j + 1) _ t q _ hle
    cases hkj : ps[k + j]? with
    | none => exact hq
    | some r =>
      simp only
      split_ifs with hr
      · rw [List.getElem?_set]
        split_ifs with h1 h2
        · exfalso
          rw [← h1, hkj] at hq
          simp only [Option.some.injEq] at hq
          rw [hq] at hr
          omega
        · exfalso
          rw [← h1, hkj] at hq
          simp only [Option.some.injEq] at hq
          rw [hq] at hr
          omega
        · exact hq
      · exact hq

theorem coalesce_restart_keeps (fuel : Nat) :
    ∀ (m m' : MemoryManager) (ps ps' : List Process) (k t : Nat) (q : Process),
      coalesce_restart fuel m ps k = some (m', ps') →
      ps[t]? = some q → q.block_index ≤ 1 → ps'[t]? = some q := by
  induction fuel with
  | zero =>
    intro m m' ps ps' k t q hrun
    simp [coalesce_restart] at hrun
  | succ fuel ih =>
    intro m m' ps ps' k t q hrun hq hle
    rw [coalesce_restart] at hrun
    cases hscan : find_adjacent_free m (m.block_count - 1) 0 with
    | none =>
      rw [hscan] at hrun
      simp only [Option.some.injEq, Prod.mk.injEq] at hrun
      rw [← hrun.2]
      exact hq
    | some i =>
      rw [hscan] at hrun
      exact ih _ m' _ ps' k t q hrun (update_indices_keeps i k _ 0 ps t q hq hle) hle

/-- Taking a free ownerless block whole and releasing it again gives back the table. -/
theorem release_assign_blocks (m : MemoryManager) (p : Process) (b : Nat)
    (hfree : (m.blocks b).is_free = true) (hown : (m.blocks b).process_id = -1) :
    liveBlocks (release_block (assign_block m p b).2.1 b) = liveBlocks m := by
  refine liveBlocks_congr (release_block (assign_block m p b).2.1 b) m rfl ?_
  intro j _
  rw [release_block_apply, assign_block_apply, if_pos rfl]
  by_cases hj : j = b
  · rw [if_pos hj, hj]
    cases hb : m.blocks b with
    | mk s z f o =>
      rw [hb] at hfree hown
      simp only at hfree hown
      rw [hfree, hown]
  · rw [if_neg hj, assign_block_apply, if_neg hj]

/-- Splitting a free ownerless block, releasing the used part and merging it with the
remainder gives back the table. -/
theorem merge_release_split_blocks (m : MemoryManager) (p : Process) (b : Nat)
    (hb : b < m.block_count)
    (hfree : (m.blocks b).is_free = true) (hown : (m.blocks b).process_id = -1) :
    liveBlocks (merge_blocks
      (release_block (assign_block (split_block m p.size b) p b).2.1 b) b) = liveBlocks m := by
  have hcount : (release_block (assign_block (split_block m p.size b) p b).2.1 b).block_count =
      m.block_count + 1 := rfl
  apply liveBlocks_congr
  · show m.block_count + 1 - 1 = m.block_count
    omega
  · intro j hj
    have hj' : j < m.block_count := by
      have : j < m.block_count + 1 - 1 := hj
      omega
    rw [merge_blocks_apply _ b j (by rw [hcount]; omega), hcount]
    by_cases h1 : j < b
    · rw [if_pos h1, release_block_apply, if_neg (by omega), assign_split_apply m p b j hb,
        if_pos h1]
    · rw [if_neg h1]
      by_cases h2 : j = b
      · subst h2
        rw [if_pos rfl, release_block_apply, if_pos rfl, release_block_apply,
          if_neg (by omega), assign_split_apply m p j j hb, if_neg (lt_irrefl j), if_pos rfl,
          assign_split_apply m p j (j + 1) hb, if_neg (by omega), if_neg (by omega),
          if_pos rfl]
        cases hblk : m.blocks j with
        | mk s z f o =>
          rw [hblk] at hfree hown
          simp only at hfree hown
          simp only [MemoryBlock.mk.injEq]
          refine ⟨trivial, by omega, hfree.symm, hown.symm⟩
      · rw [if_neg h2, if_pos (by omega), release_block_apply, if_neg (by omega),
          assign_split_apply m p b (j + 1) hb, if_neg (by omega), if_neg (by omega),
          if_neg (by omega), if_pos (by omega), Nat.add_sub_cancel]

/-- Coalescing after the release of a freshly allocated block gives back the block
list the allocation started from. -/
theorem roundtrip_blocks (m : MemoryManager) (p : Process) (b : Nat)
    (hb : b < m.block_count) (hadj : NoAdjacentFree m)
    (hfree : (m.blocks b).is_free = true) (hown : (m.blocks b).process_id = -1) :
    coalesceRuns (liveBlocks (release_block (assign_block m p b).2.1 b)) = liveBlocks m ∧
    coalesceRuns (liveBlocks
      (release_block (assign_block (split_block m p.size b) p b).2.1 b)) = liveBlocks m := by
  constructor
  · rw [release_assign_blocks m p b hfree hown]
    exact coalesceRuns_of_NoAdjacentFree m hadj
  · have hcount :
        (release_block (assign_block (split_block m p.size b) p b).2.1 b).block_count =
          m.block_count + 1 := rfl
    rw [← coalesceRuns_merge_first _ b (by rw [hcount]; omega),
      merge_release_split_blocks m p b hb hfree hown]
    · exact coalesceRuns_of_NoAdjacentFree m hadj
    · constructor
      · rw [release_block_apply, if_pos rfl]
      · rw [release_block_apply, if_neg (by omega), assign_split_apply m p b (b + 1) hb,
          if_neg (by omega), if_neg (by omega), if_pos rfl]
    · intro j hj
      rw [release_block_apply, if_neg (by omega), assign_split_apply m p b j hb, if_pos hj]
      intro hboth
      by_cases hjb : j + 1 = b
      · apply hadj j (by omega)
        rw [hjb]
        exact ⟨hboth.1, hfree⟩
      · apply hadj j (by omega)
        refine ⟨hboth.1, ?_⟩
        have h2 := hboth.2
        rw [release_block_apply, if_neg hjb, assign_split_apply m p b (j + 1) hb,
          if_pos (by omega)] at h2
        exact h2

/-- C12: in a manager state where no two adjacent blocks are both free and every free
block has owner `-1` (the claim's tiling and positive-size conditions are not needed),
if `allocate_memory` succeeds for a process of the array and `deallocate_memory` is
called on that process right afterwards with a step budget above `block_count`, the
call returns, `block_count` and the block list (start, size, free flag, owner of every
block) are exactly as before the allocation, and the process is Terminated with
`block_index = -1`. -/
theorem C12_allocate_then_deallocate_restores_blocks (fuel : Nat) (m m1 : MemoryManager)
    (ps : List Process) (k : Nat) (p p1 : Process)
    (hp : ps[k]? = some p)
    (hadj : NoAdjacentFree m)
    (hown : ∀ j, j < m.block_count → (m.blocks j).is_free = true →
      (m.blocks j).process_id = -1)
    (halloc : allocate_memory m p = (true, m1, p1))
    (hfuel : m1.block_count < fuel) :
    ∃ m2 ps2, deallocate_memory fuel m1 (ps.set k p1) k = some (m2, ps2) ∧
      m2.block_count = m.block_count ∧ liveBlocks m2 = liveBlocks m ∧
      ∃ q, ps2[k]? = some q ∧ q.block_index = -1 ∧ q.state = .PROCESS_TERMINATED := by
  have hk : k < ps.length := (List.getElem?_eq_some.mp hp).1
  have key : ∀ b : Nat, b < m.block_count → (m.blocks b).is_free = true →
      ∀ M : MemoryManager, M.block_count < fuel →
      p1 = { p with block_index := (b : Int), state := .PROCESS_RUNNING } →
      m1 = M → coalesceRuns (liveBlocks (release_block M b)) = liveBlocks m →
      ∃ m2 ps2, deallocate_memory fuel m1 (ps.set k p1) k = some (m2, ps2) ∧
        m2.block_count = m.block_count ∧ liveBlocks m2 = liveBlocks m ∧
        ∃ q, ps2[k]? = some q ∧ q.block_index = -1 ∧ q.state = .PROCESS_TERMINATED := by
    intro b _ _ M hM hp1 hm1 hblocks
    obtain ⟨m2, ps2, hrun, _⟩ := coalesce_restart_terminates fuel (release_block M b)
      ((ps.set k p1).set k { p1 with state := .PROCESS_TERMINATED, block_index := -1 }) k hM
    have hlist : liveBlocks m2 = liveBlocks m := by
      rw [coalesce_restart_blocks fuel _ m2 _ ps2 k hrun, hblocks]
    refine ⟨m2, ps2, ?_, ?_, hlist, ?_⟩
    · unfold deallocate_memory
      rw [List.getElem?_set, if_pos rfl, if_pos hk]
      have hidx : p1.block_index = (b : Int) := by rw [hp1]
      have h1 : ¬ p1.block_index = -1 := by omega
      have h2 : ¬ p1.block_index < 0 := by omega
      simp only [h1, h2, if_false]
      rw [hidx, Int.toNat_ofNat, hm1]
      exact hrun
    · rw [← liveBlocks_length m2, hlist, liveBlocks_length]
    · refine ⟨{ p1 with state := .PROCESS_TERMINATED, block_index := -1 }, ?_, rfl, rfl⟩
      apply coalesce_restart_keeps fuel _ m2 _ ps2 k k _ hrun
      · rw [List.getElem?_set, if_pos rfl, if_pos (by rw [List.length_set]; exact hk)]
      · show (-1 : Int) ≤ 1
        omega
  rcases allocate_memory_cases m p with ⟨h1, _⟩ | ⟨b, _, h2, _, h | h⟩
  · rw [h1] at halloc
    simp at halloc
  · rw [h.2.2] at halloc
    simp only [assign_block, Prod.mk.injEq, true_and] at halloc
    have hM : (assign_block (split_block m p.size b) p b).2.1 = m1 := halloc.1
    exact key b h2.1 h2.2.1 (assign_block (split_block m p.size b) p b).2.1
      (by rw [hM]; exact hfuel) halloc.2.symm hM.symm
      (roundtrip_blocks m p b h2.1 hadj h2.2.1 (hown b h2.1 h2.2.1)).2
  · rw [h.2] at halloc
    simp only [assign_block, Prod.mk.injEq, true_and] at halloc
    have hM : (assign_block m p b).2.1 = m1 := halloc.1
    exact key b h2.1 h2.2.1 (assign_block m p b).2.1
      (by rw [hM]; exact hfuel) halloc.2.symm hM.symm
      (roundtrip_blocks m p b h2.1 hadj h2.2.1 (hown b h2.1 h2.2.1)).1



/-- Allocating 30 KB in `[free 100][used 50]` splits the free block; deallocating right
away gives back `[free 100][used 50]`. -/
theorem C12_allocate_then_deallocate_restores_blocks_witness :
    ∃ m2 ps2,
      deallocate_memory 5 (allocate_memory roundtripExample ⟨3, 30, .PROCESS_NEW, -1⟩).2.1
        ([(⟨3, 30, .PROCESS_NEW, -1⟩ : Process)].set 0
          (allocate_memory roundtripExample ⟨3, 30, .PROCESS_NEW, -1⟩).2.2) 0 =
        some (m2, ps2) ∧
      m2.block_count = roundtripExample.block_count ∧
      liveBlocks m2 = liveBlocks roundtripExample ∧
      ∃ q, ps2[0]? = some q ∧ q.block_index = -1 ∧ q.state = .PROCESS_TERMINATED :=
  C12_allocate_then_deallocate_restores_blocks 5 roundtripExample _
    [⟨3, 30, .PROCESS_NEW, -1⟩] 0 ⟨3, 30, .PROCESS_NEW, -1⟩ _ rfl
    (by
      intro i hi
      have hi2 : i + 1 < 2 := hi
      have hi0 : i = 0 := by omega
      subst hi0
      decide)
    (by decide) rfl (by decide)

/-! ## Fragmentation metrics -/

theorem count_free_loop_spec (m : MemoryManager) (n : Nat) :
    ∀ (i : Nat) (acc : Int × Int × Int),
      count_free_loop m n i acc =
        (acc.1 + ((((List.range' i n).map m.blocks).filter (fun b => b.is_free)).length : Int),
          acc.2.1 + ((((List.range' i n).map m.blocks).filter
            (fun b => b.is_free)).map (fun b => b.size)).sum,
          acc.2.2 + ((((List.range' i n).map m.blocks).filter
            (fun b => b.is_free)).length : Int)) := by
  induction n with
  | zero =>
    intro i acc
    simp [count_free_loop]
  | succ n ih =>
    intro i acc
    rw [count_free_loop, List.range'_succ, List.map_cons]
    by_cases hf : (m.blocks i).is_free = true
    · rw [if_pos hf, ih, List.filter_cons_of_pos (by simpa using hf)]
      simp only [List.length_cons, List.map_cons, List.sum_cons, Nat.cast_add, Nat.cast_one]
      refine Prod.ext ?_ (Prod.ext ?_ ?_) <;> simp only <;> omega
    · rw [if_neg hf, ih, List.filter_cons_of_neg (by simpa using hf)]

theorem largest_free_loop_spec (m : MemoryManager) (n : Nat) :
    ∀ (i : Nat) (largest : Int), 0 ≤ largest →
      largest_free_loop m n i largest =
        max largest (((((List.range' i n).map m.blocks).filter
          (fun b => b.is_free)).map (fun b => b.size)).foldr max 0) := by
  induction n with
  | zero =>
    intro i largest h
    simp [largest_free_loop, h]
  | succ n ih =>
    intro i largest h
    rw [largest_free_loop, List.range'_succ, List.map_cons]
    by_cases hf : (m.blocks i).is_free = true
    · rw [List.filter_cons_of_pos (by simpa using hf), List.map_cons, List.foldr_cons]
      by_cases hgt : (m.blocks i).size > largest
      · rw [if_pos (by simp [hf, hgt]), ih _ _ (by omega)]
        omega
      · rw [if_neg (by simp [hf, hgt]), ih _ _ h]
        omega
    · rw [List.filter_cons_of_neg (by simpa using hf), if_neg (by simp [hf]), ih _ _ h]

theorem count_free_loop_eq (m : MemoryManager) :
    count_free_loop m m.block_count 0 (0, 0, 0) = (freeCount m, freeBlockSum m, freeCount m) := by
  rw [count_free_loop_spec]
  simp [freeCount, freeBlockSum, liveBlocks, List.range_eq_range']

theorem largest_free_loop_eq (m : MemoryManager) :
    largest_free_loop m m.block_count 0 0 = largestFree m := by
  rw [largest_free_loop_spec m _ 0 0 (le_refl _)]
  have h : ∀ l : List Int, 0 ≤ l.foldr max 0 := by
    intro l
    induction l with
    | nil => simp
    | cons a l ih =>
      rw [List.foldr_cons]
      omega
  simp only [largestFree, liveBlocks, List.range_eq_range']
  exact max_eq_right (h _)

theorem roundHalfEven_intCast (z : ℤ) : roundHalfEven (z : ℚ) = z := by
  unfold roundHalfEven
  rw [Int.floor_intCast]
  simp

theorem roundHalfEven_cases (q : ℚ) :
    roundHalfEven q = ⌊q⌋ ∧ q - ⌊q⌋ ≤ 1 / 2 ∨ roundHalfEven q = ⌊q⌋ + 1 ∧ 1 / 2 ≤ q - ⌊q⌋ := by
  unfold roundHalfEven
  split_ifs with h1 h2 h3
  · left
    exact ⟨rfl, le_of_lt h1⟩
  · right
    exact ⟨rfl, le_of_lt h2⟩
  · left
    exact ⟨rfl, not_lt.mp h2⟩
  · right
    exact ⟨rfl, not_lt.mp h1⟩

theorem le_roundHalfEven (q : ℚ) (z : ℤ) (h : (z : ℚ) ≤ q) : z ≤ roundHalfEven q := by
  have hz : z ≤ ⌊q⌋ := Int.le_floor.mpr h
  rcases roundHalfEven_cases q with ⟨h1, _⟩ | ⟨h1, _⟩ <;> omega

theorem roundHalfEven_le (q : ℚ) (z : ℤ) (h : q ≤ (z : ℚ)) : roundHalfEven q ≤ z := by
  have hz : ⌊q⌋ ≤ z := by
    have h0 : ⌊q⌋ ≤ ⌊(z : ℚ)⌋ := Int.floor_le_floor h
    rw [Int.floor_intCast] at h0
    exact h0
  rcases roundHalfEven_cases q with ⟨h1, _⟩ | ⟨h1, h2⟩
  · omega
  · have hne : ⌊q⌋ ≠ z := by
      intro heq
      have h3 : q - ⌊q⌋ ≤ 0 := by
        rw [heq]
        linarith
      linarith
    omega

theorem roundHalfEven_mono (q1 q2 : ℚ) (h : q1 ≤ q2) : roundHalfEven q1 ≤ roundHalfEven q2 := by
  have hf : ⌊q1⌋ ≤ ⌊q2⌋ := Int.floor_le_floor h
  by_cases heq : ⌊q1⌋ = ⌊q2⌋
  · unfold roundHalfEven
    rw [heq]
    have hr : q1 - ⌊q2⌋ ≤ q2 - ⌊q2⌋ := by linarith
    split_ifs <;> first | omega | (exfalso; linarith)
  · have hlt : ⌊q1⌋ + 1 ≤ ⌊q2⌋ := by omega
    rcases roundHalfEven_cases q1 with ⟨h1, _⟩ | ⟨h1, _⟩ <;>
      rcases roundHalfEven_cases q2 with ⟨h2, _⟩ | ⟨h2, _⟩ <;> omega

theorem roundDouble_zero : roundDouble 0 = 0 := by
  simp [roundDouble]

/-- The binary exponent of a positive rational. -/
theorem log_two_bounds (q : ℚ) (hq : 0 < q) :
    (2 : ℚ) ^ Int.log 2 q ≤ q ∧ q < (2 : ℚ) ^ (Int.log 2 q + 1) := by
  have h1 := Int.zpow_log_le_self (b := 2) (by norm_num) hq
  have h2 := Int.lt_zpow_succ_log_self (b := 2) (by norm_num) q
  simp only [Nat.cast_ofNat] at h1 h2
  exact ⟨h1, h2⟩

theorem log_two_eq (q : ℚ) (e : ℤ) (hq : 0 < q) (h1 : (2 : ℚ) ^ e ≤ q)
    (h2 : q < (2 : ℚ) ^ (e + 1)) : Int.log 2 q = e := by
  have a1 : e ≤ Int.log 2 q := by
    apply (Int.zpow_le_iff_le_log (b := 2) (by norm_num) hq).mp
    simpa using h1
  have a2 : Int.log 2 q < e + 1 := by
    apply (Int.lt_zpow_iff_log_lt (b := 2) (by norm_num) hq).mp
    simpa using h2
  omega

/-- The double nearest to a positive `q` with binary exponent `e` is the nearest
multiple of `2 ^ (e - 52)`. -/
theorem roundDouble_of_exponent (q : ℚ) (e n : ℤ) (hq : 0 < q) (h1 : (2 : ℚ) ^ e ≤ q)
    (h2 : q < (2 : ℚ) ^ (e + 1)) (hn : roundHalfEven (q / (2 : ℚ) ^ (e - 52)) = n) :
    roundDouble q = (n : ℚ) * (2 : ℚ) ^ (e - 52) := by
  unfold roundDouble
  rw [if_neg (ne_of_gt hq), abs_of_pos hq, log_two_eq q e hq h1 h2, hn]

/-- The significand of a positive rational lies between `2 ^ 52` and `2 ^ 53`. -/
theorem significand_bounds (q : ℚ) (hq : 0 < q) :
    ((2 ^ 52 : ℤ) : ℚ) ≤ q / (2 : ℚ) ^ (Int.log 2 q - 52) ∧
    q / (2 : ℚ) ^ (Int.log 2 q - 52) ≤ ((2 ^ 53 : ℤ) : ℚ) := by
  obtain ⟨h1, h2⟩ := log_two_bounds q hq
  have hu : (0 : ℚ) < (2 : ℚ) ^ (Int.log 2 q - 52) := zpow_pos (by norm_num) _
  have e1 : (2 : ℚ) ^ Int.log 2 q = (2 : ℚ) ^ (52 : ℤ) * (2 : ℚ) ^ (Int.log 2 q - 52) := by
    rw [← zpow_add₀ (by norm_num : (2 : ℚ) ≠ 0)]
    congr 1
    omega
  have e2 : (2 : ℚ) ^ (Int.log 2 q + 1) =
      (2 : ℚ) ^ (53 : ℤ) * (2 : ℚ) ^ (Int.log 2 q - 52) := by
    rw [← zpow_add₀ (by norm_num : (2 : ℚ) ≠ 0)]
    congr 1
    omega
  constructor
  · rw [le_div_iff₀ hu]
    have : ((2 ^ 52 : ℤ) : ℚ) = (2 : ℚ) ^ (52 : ℤ) := by norm_num
    rw [this, ← e1]
    exact h1
  · rw [div_le_iff₀ hu]
    have : ((2 ^ 53 : ℤ) : ℚ) = (2 : ℚ) ^ (53 : ℤ) := by norm_num
    rw [this, ← e2]
    exact le_of_lt h2

/-- A positive rational rounds to a double within its own binade. -/
theorem roundDouble_binade (q : ℚ) (hq : 0 < q) :
    (2 : ℚ) ^ Int.log 2 q ≤ roundDouble q ∧ roundDouble q ≤ (2 : ℚ) ^ (Int.log 2 q + 1) := by
  obtain ⟨s1, s2⟩ := significand_bounds q hq
  have hu : (0 : ℚ) < (2 : ℚ) ^ (Int.log 2 q - 52) := zpow_pos (by norm_num) _
  have n1 := le_roundHalfEven _ _ s1
  have n2 := roundHalfEven_le _ _ s2
  have c1 : ((2 ^ 52 : ℤ) : ℚ) ≤ (roundHalfEven (q / (2 : ℚ) ^ (Int.log 2 q - 52)) : ℚ) := by
    exact_mod_cast n1
  have c2 : (roundHalfEven (q / (2 : ℚ) ^ (Int.log 2 q - 52)) : ℚ) ≤ ((2 ^ 53 : ℤ) : ℚ) := by
    exact_mod_cast n2
  have e1 : (2 : ℚ) ^ Int.log 2 q = ((2 ^ 52 : ℤ) : ℚ) * (2 : ℚ) ^ (Int.log 2 q - 52) := by
    have : ((2 ^ 52 : ℤ) : ℚ) = (2 : ℚ) ^ (52 : ℤ) := by norm_num
    rw [this, ← zpow_add₀ (by norm_num : (2 : ℚ) ≠ 0)]
    congr 1
    omega
  have e2 : (2 : ℚ) ^ (Int.log 2 q + 1) =
      ((2 ^ 53 : ℤ) : ℚ) * (2 : ℚ) ^ (Int.log 2 q - 52) := by
    have : ((2 ^ 53 : ℤ) : ℚ) = (2 : ℚ) ^ (53 : ℤ) := by norm_num
    rw [this, ← zpow_add₀ (by norm_num : (2 : ℚ) ≠ 0)]
    congr 1
    omega
  unfold roundDouble
  rw [if_neg (ne_of_gt hq), abs_of_pos hq, e1, e2]
  exact ⟨mul_le_mul_of_nonneg_right c1 (le_of_lt hu), mul_le_mul_of_nonneg_right c2 (le_of_lt hu)⟩

/-- Rounding to the nearest double is monotone on the positive rationals. -/
theorem roundDouble_mono_pos (q1 q2 : ℚ) (h1 : 0 < q1) (h : q1 ≤ q2) :
    roundDouble q1 ≤ roundDouble q2 := by
  have h2 : 0 < q2 := lt_of_lt_of_le h1 h
  have hlog : Int.log 2 q1 ≤ Int.log 2 q2 := Int.log_mono_right h1 h
  by_cases heq : Int.log 2 q1 = Int.log 2 q2
  · have hu : (0 : ℚ) < (2 : ℚ) ^ (Int.log 2 q2 - 52) := zpow_pos (by norm_num) _
    unfold roundDouble
    rw [if_neg (ne_of_gt h1), if_neg (ne_of_gt h2), abs_of_pos h1, abs_of_pos h2, heq]
    apply mul_le_mul_of_nonneg_right _ (le_of_lt hu)
    exact_mod_cast roundHalfEven_mono _ _ (div_le_div_of_nonneg_right h (le_of_lt hu))
  · have hlt : Int.log 2 q1 + 1 ≤ Int.log 2 q2 := by omega
    calc roundDouble q1 ≤ (2 : ℚ) ^ (Int.log 2 q1 + 1) := (roundDouble_binade q1 h1).2
      _ ≤ (2 : ℚ) ^ Int.log 2 q2 := zpow_le_zpow_right₀ (by norm_num) hlt
      _ ≤ roundDouble q2 := (roundDouble_binade q2 h2).1

theorem roundDouble_nonneg (q : ℚ) (hq : 0 ≤ q) : 0 ≤ roundDouble q := by
  rcases eq_or_lt_of_le hq with h | h
  · rw [← h, roundDouble_zero]
  · exact le_trans (le_of_lt (zpow_pos (by norm_num) _)) (roundDouble_binade q h).1

/-- Rounding to the nearest double is monotone on the nonnegative rationals. -/
theorem roundDouble_mono (q1 q2 : ℚ) (h1 : 0 ≤ q1) (h : q1 ≤ q2) :
    roundDouble q1 ≤ roundDouble q2 := by
  rcases eq_or_lt_of_le h1 with h0 | h0
  · rw [← h0, roundDouble_zero]
    exact roundDouble_nonneg q2 (le_trans h1 h)
  · exact roundDouble_mono_pos q1 q2 h0 h

theorem roundHalfEven_down (q : ℚ) (z : ℤ) (h1 : (z : ℚ) ≤ q) (h2 : q < (z : ℚ) + 1 / 2) :
    roundHalfEven q = z := by
  have hf : ⌊q⌋ = z := by
    rw [Int.floor_eq_iff]
    constructor
    · exact h1
    · linarith
  unfold roundHalfEven
  rw [hf, if_pos (by linarith)]

theorem roundHalfEven_up (q : ℚ) (z : ℤ) (h1 : (z : ℚ) - 1 / 2 < q) (h2 : q < (z : ℚ)) :
    roundHalfEven q = z := by
  have hf : ⌊q⌋ = z - 1 := by
    rw [Int.floor_eq_iff]
    push_cast
    constructor
    · linarith
    · linarith
  unfold roundHalfEven
  rw [hf]
  push_cast
  rw [if_neg (by linarith), if_pos (by linarith)]
  omega

theorem roundDouble_one : roundDouble 1 = 1 := by
  rw [roundDouble_of_exponent 1 0 (2 ^ 52) (by norm_num) (by norm_num) (by norm_num)
    (roundHalfEven_down _ _ (by norm_num) (by norm_num))]
  norm_num

theorem roundDouble_twenty : roundDouble 20 = 20 := by
  rw [roundDouble_of_exponent 20 4 (20 * 2 ^ 48) (by norm_num) (by norm_num) (by norm_num)
    (roundHalfEven_down _ _ (by norm_num) (by norm_num))]
  norm_num

theorem roundDouble_hundred : roundDouble 100 = 100 := by
  rw [roundDouble_of_exponent 100 6 (100 * 2 ^ 46) (by norm_num) (by norm_num) (by norm_num)
    (roundHalfEven_down _ _ (by norm_num) (by norm_num))]
  norm_num

/-- The double nearest to `20 / 100`. -/
theorem roundDouble_fifth :
    roundDouble (20 / 100) = 3602879701896397 / 18014398509481984 := by
  rw [roundDouble_of_exponent (20 / 100) (-3) 7205759403792794 (by norm_num) (by norm_num)
    (by norm_num) (roundHalfEven_up _ _ (by norm_num) (by norm_num))]
  norm_num

/-- The double nearest to the product of the double `0.2` and `100` is `20`. -/
theorem roundDouble_fifth_times_hundred :
    roundDouble (3602879701896397 / 18014398509481984 * 100) = 20 := by
  rw [roundDouble_of_exponent (3602879701896397 / 18014398509481984 * 100) 4
    5629499534213120 (by norm_num) (by norm_num) (by norm_num)
    (roundHalfEven_down _ _ (by norm_num) (by norm_num))]
  norm_num

theorem foldr_max_spec (l : List Int) :
    (∀ x ∈ l, x ≤ l.foldr max 0) ∧ (l.foldr max 0 = 0 ∨ l.foldr max 0 ∈ l) := by
  induction l with
  | nil => simp
  | cons a l ih =>
    rw [List.foldr_cons]
    constructor
    · intro x hx
      rcases List.mem_cons.mp hx with h | h
      · rw [h]
        exact le_max_left _ _
      · exact le_trans (ih.1 x h) (le_max_right _ _)
    · rcases le_total a (l.foldr max 0) with h | h
      · rw [max_eq_right h]
        rcases ih.2 with h2 | h2
        · exact Or.inl h2
        · exact Or.inr (List.mem_cons_of_mem _ h2)
      · rw [max_eq_left h]
        exact Or.inr (List.mem_cons_self _ _)

/-! ## The free-capacity counter against the free blocks -/

theorem freeBlockSum_eq (m : MemoryManager) : freeBlockSum m = freeSum (liveBlocks m) := rfl

theorem freeSum_append (l1 l2 : List MemoryBlock) :
    freeSum (l1 ++ l2) = freeSum l1 + freeSum l2 := by
  simp [freeSum]

theorem freeSum_cons (b : MemoryBlock) (l : List MemoryBlock) :
    freeSum (b :: l) = (if b.is_free = true then b.size else 0) + freeSum l := by
  by_cases h : b.is_free = true
  · simp [freeSum, h]
  · simp [freeSum, h]

theorem liveBlocks_decompose (m : MemoryManager) (i : Nat) (hi : i < m.block_count) :
    liveBlocks m = (liveBlocks m).take i ++ m.blocks i :: (liveBlocks m).drop (i + 1) := by
  have hx : (liveBlocks m)[i]? = some (m.blocks i) := by
    rw [liveBlocks_getElem?, if_pos hi]
  rw [← drop_of_getElem? _ i _ hx, List.take_append_drop]

theorem freeSum_liveBlocks (m : MemoryManager) (i : Nat) (hi : i < m.block_count) :
    freeBlockSum m = freeSum ((liveBlocks m).take i) +
      (if (m.blocks i).is_free = true then (m.blocks i).size else 0) +
      freeSum ((liveBlocks m).drop (i + 1)) := by
  rw [freeBlockSum_eq]
  conv_lhs => rw [liveBlocks_decompose m i hi]
  rw [freeSum_append, freeSum_cons]
  omega

theorem liveBlocks_set (m : MemoryManager) (i : Nat) (b : MemoryBlock)
    (hi : i < m.block_count) :
    liveBlocks { m with blocks := write m.blocks i b } =
      (liveBlocks m).take i ++ b :: (liveBlocks m).drop (i + 1) := by
  apply List.ext_getElem?
  intro j
  have hlen : ((liveBlocks m).take i).length = i := by
    rw [List.length_take, liveBlocks_length]
    omega
  rw [liveBlocks_getElem?]
  simp only [write]
  by_cases h1 : j < i
  · rw [List.getElem?_append_left (by omega), List.getElem?_take, if_pos h1,
      liveBlocks_getElem?, if_pos (by omega), if_neg (by omega), if_pos (by omega)]
  · rw [List.getElem?_append_right (by omega), hlen]
    by_cases h2 : j = i
    · subst h2
      rw [Nat.sub_self, if_pos hi, if_pos rfl, List.getElem?_cons_zero]
    · have h3 : j - i = (j - i - 1) + 1 := by omega
      rw [if_neg h2, h3, List.getElem?_cons_succ, List.getElem?_drop, liveBlocks_getElem?]
      have h4 : i + 1 + (j - i - 1) = j := by omega
      rw [h4]

/-- Allocation never lowers `free_size - freeBlockSum`. -/
theorem slack_allocate (m : MemoryManager) (p : Process) :
    m.free_size - freeBlockSum m ≤
      (allocate_memory m p).2.1.free_size - freeBlockSum (allocate_memory m p).2.1 := by
  rcases allocate_memory_cases m p with ⟨h1, _⟩ | ⟨b, _, h2, _, h | h⟩
  · rw [h1]
  · rw [h.2.2, freeBlockSum_eq (assign_block (split_block m p.size b) p b).2.1,
      liveBlocks_split m p b h2.1, freeSum_liveBlocks m b h2.1, if_pos h2.2.1,
      freeSum_append, freeSum_append, freeSum_cons, freeSum_cons]
    have h3 : (assign_block (split_block m p.size b) p b).2.1.free_size =
        m.free_size - p.size := rfl
    have h4 : freeSum [] = 0 := rfl
    rw [h3, h4]
    simp only [Bool.false_eq_true, if_false, if_true]
    omega
  · have h5 : (assign_block m p b).2.1 =
        { m with
          blocks := write m.blocks b { m.blocks b with is_free := false, process_id := p.id }
          free_size := m.free_size - p.size } := rfl
    have h6 : liveBlocks (assign_block m p b).2.1 =
        (liveBlocks m).take b ++
          { m.blocks b with is_free := false, process_id := p.id } ::
            (liveBlocks m).drop (b + 1) :=
      liveBlocks_set m b _ h2.1
    rw [h.2, freeBlockSum_eq (assign_block m p b).2.1, h6, freeSum_liveBlocks m b h2.1,
      if_pos h2.2.1, freeSum_append, freeSum_cons]
    have h3 : (assign_block m p b).2.1.free_size = m.free_size - p.size := rfl
    rw [h3]
    simp only [Bool.false_eq_true, if_false]
    have := h2.2.2
    omega

/-- Releasing a live block of nonnegative size never lowers `free_size - freeBlockSum`. -/
theorem slack_release (m : MemoryManager) (i : Nat) (hi : i < m.block_count)
    (hsize : 0 ≤ (m.blocks i).size) :
    m.free_size - freeBlockSum m ≤
      (release_block m i).free_size - freeBlockSum (release_block m i) := by
  have h1 : liveBlocks (release_block m i) =
      (liveBlocks m).take i ++
        { m.blocks i with is_free := true, process_id := -1 } ::
          (liveBlocks m).drop (i + 1) :=
    liveBlocks_set m i _ hi
  have h2 : (release_block m i).free_size = m.free_size + (m.blocks i).size := rfl
  rw [freeBlockSum_eq (release_block m i), h1, h2, freeSum_liveBlocks m i hi, freeSum_append,
    freeSum_cons]
  simp only [if_true]
  split_ifs <;> omega

/-- Merging two free blocks changes neither `free_size` nor the sum of the free sizes. -/
theorem freeBlockSum_merge (m : MemoryManager) (i : Nat) (hi : i + 1 < m.block_count)
    (hfree : (m.blocks i).is_free = true ∧ (m.blocks (i + 1)).is_free = true) :
    freeBlockSum (merge_blocks m i) = freeBlockSum m := by
  have hy : (liveBlocks m)[i + 1]? = some (m.blocks (i + 1)) := by
    rw [liveBlocks_getElem?, if_pos hi]
  rw [freeBlockSum_eq (merge_blocks m i), liveBlocks_merge m i hi,
    freeSum_liveBlocks m i (by omega), drop_of_getElem? _ (i + 1) _ hy, freeSum_append,
    freeSum_cons, freeSum_cons, if_pos hfree.1, if_pos hfree.2, if_pos hfree.1]
  have h3 : i + 1 + 1 = i + 2 := rfl
  rw [h3]
  simp only
  omega

theorem coalesce_restart_sums (fuel : Nat) :
    ∀ (m m' : MemoryManager) (ps ps' : List Process) (k : Nat),
      coalesce_restart fuel m ps k = some (m', ps') →
      m'.free_size = m.free_size ∧ freeBlockSum m' = freeBlockSum m := by
  induction fuel with
  | zero =>
    intro m m' ps ps' k hrun
    simp [coalesce_restart] at hrun
  | succ fuel ih =>
    intro m m' ps ps' k hrun
    rw [coalesce_restart] at hrun
    cases hscan : find_adjacent_free m (m.block_count - 1) 0 with
    | none =>
      rw [hscan] at hrun
      simp only [Option.some.injEq, Prod.mk.injEq] at hrun
      rw [← hrun.1]
      exact ⟨rfl, rfl⟩
    | some i =>
      rw [hscan] at hrun
      obtain ⟨_, h2, h3, _⟩ := find_adjacent_free_some m _ 0 i hscan
      obtain ⟨e1, e2⟩ := ih (merge_blocks m i) m' _ ps' k hrun
      rw [e1, e2, freeBlockSum_merge m i (by omega) h3]
      exact ⟨rfl, rfl⟩

/-- Deallocation of a process with a valid block index never lowers
`free_size - freeBlockSum`, when block sizes are not negative. -/
theorem slack_deallocate (fuel : Nat) (m m' : MemoryManager) (ps ps' : List Process)
    (k : Nat) (p : Process) (hp : ps[k]? = some p)
    (hidx : 0 ≤ p.block_index ∧ p.block_index < (m.block_count : Int))
    (hsize : ∀ i, i < m.block_count → 0 ≤ (m.blocks i).size)
    (hrun : deallocate_memory fuel m ps k = some (m', ps')) :
    m.free_size - freeBlockSum m ≤ m'.free_size - freeBlockSum m' := by
  unfold deallocate_memory at hrun
  rw [hp] at hrun
  have h1 : ¬ p.block_index = -1 := by omega
  have h2 : ¬ p.block_index < 0 := by omega
  simp only [h1, h2, if_false] at hrun
  have hi : p.block_index.toNat < m.block_count := by omega
  obtain ⟨e1, e2⟩ := coalesce_restart_sums fuel _ m' _ ps' k hrun
  rw [e1, e2]
  exact slack_release m _ hi (hsize _ hi)

theorem foldr_max_le_sum (l : List Int) (h : ∀ x ∈ l, 0 ≤ x) :
    0 ≤ l.foldr max 0 ∧ l.foldr max 0 ≤ l.sum := by
  induction l with
  | nil => simp
  | cons a l ih =>
    have ha : 0 ≤ a := h a (List.mem_cons_self _ _)
    obtain ⟨h1, h2⟩ := ih (fun x hx => h x (List.mem_cons_of_mem _ hx))
    rw [List.foldr_cons, List.sum_cons]
    constructor <;> omega

/-- With block sizes that are not negative, the largest free block is at most the sum
of the free blocks. -/
theorem largestFree_bounds (m : MemoryManager)
    (hsize : ∀ i, i < m.block_count → 0 ≤ (m.blocks i).size) :
    0 ≤ largestFree m ∧ largestFree m ≤ freeBlockSum m := by
  apply foldr_max_le_sum
  intro x hx
  obtain ⟨b, hb, hbx⟩ := List.mem_map.mp hx
  have hb2 : b ∈ liveBlocks m := (List.mem_filter.mp hb).1
  obtain ⟨i, hi, hib⟩ := List.mem_map.mp hb2
  rw [← hbx, ← hib]
  exact hsize i (List.mem_range.mp hi)

/-- The double value of `x / y * 100` lies between 0 and 100 for `int` values
`0 <= x <= y`, `y > 0`. -/
theorem percentage_bounds (x y : Int) (hx : 0 ≤ x) (hxy : x ≤ y) (hy : 0 < y) :
    0 ≤ doubleMul (doubleDiv (intToDouble x) (intToDouble y)) 100 ∧
    doubleMul (doubleDiv (intToDouble x) (intToDouble y)) 100 ≤ 100 := by
  have hx' : (0 : ℚ) ≤ (x : ℚ) := by exact_mod_cast hx
  have hxy' : (x : ℚ) ≤ (y : ℚ) := by exact_mod_cast hxy
  have hy' : (1 : ℚ) ≤ (y : ℚ) := by exact_mod_cast hy
  have a1 : 0 ≤ intToDouble x := roundDouble_nonneg _ hx'
  have a2 : intToDouble x ≤ intToDouble y := roundDouble_mono _ _ hx' hxy'
  have a3 : 1 ≤ intToDouble y := by
    have := roundDouble_mono 1 (y : ℚ) (by norm_num) hy'
    rw [roundDouble_one] at this
    exact this
  have a4 : (0 : ℚ) < intToDouble y := by linarith
  have b1 : 0 ≤ intToDouble x / intToDouble y := div_nonneg a1 (le_of_lt a4)
  have b2 : intToDouble x / intToDouble y ≤ 1 := (div_le_one a4).mpr a2
  have c1 : 0 ≤ doubleDiv (intToDouble x) (intToDouble y) := roundDouble_nonneg _ b1
  have c2 : doubleDiv (intToDouble x) (intToDouble y) ≤ 1 := by
    have := roundDouble_mono _ 1 b1 b2
    rw [roundDouble_one] at this
    exact this
  have d1 : 0 ≤ doubleDiv (intToDouble x) (intToDouble y) * 100 := by linarith
  have d2 : doubleDiv (intToDouble x) (intToDouble y) * 100 ≤ 100 := by linarith
  constructor
  · exact roundDouble_nonneg _ d1
  · have := roundDouble_mono _ 100 d1 d2
    rw [roundDouble_hundred] at this
    exact this

theorem percentage_formula (m : MemoryManager) (stats : Statistics) :
    (update_fragmentation_metrics m stats).2.fragmentation_percentage =
      (if 0 < m.free_size ∧ 2 ≤ freeCount m then
        doubleMul
          (doubleDiv (intToDouble (m.free_size - largestFree m)) (intToDouble m.free_size))
          100
      else 0) := by
  simp only [update_fragmentation_metrics, count_free_loop_eq, largest_free_loop_eq]
  by_cases h1 : m.free_size > 0
  · by_cases h2 : freeCount m > 1
    · rw [if_pos h1, if_pos h2, if_pos ⟨h1, by omega⟩]
    · rw [if_pos h1, if_neg h2, if_neg (by omega)]
  · rw [if_neg h1, if_neg (by omega)]
/-! ## Statements for calls whose `int` arithmetic does not overflow -/

/-- What `AllocateFits` gives once the strategy has chosen block `b`. -/
theorem AllocateFits_chosen (m : MemoryManager) (p : Process) (b : Nat)
    (hfit : AllocateFits m p) (hsel : select_block m p.size = (b : Int))
    (hb : Fits m p.size b) (hle : p.size ≤ m.free_size) :
    InInt (p.size + 10) ∧ InInt (m.free_size - p.size) ∧
    InInt ((m.blocks b).size - p.size) ∧
    ((m.blocks b).size > p.size + 10 → InInt ((m.blocks b).start_address + p.size)) := by
  have hne : select_block m p.size ≠ -1 := by
    rw [hsel]
    omega
  obtain ⟨h1, h2, h3⟩ := hfit.2 hle hne
  rw [hsel, Int.toNat_ofNat] at h3
  exact ⟨h1, h2, hfit.1 b hb.1 hb.2.1 hb.2.2, h3⟩

/-- C8: for a call of `allocate_memory` whose `int` arithmetic does not overflow
(`AllocateFits`), that succeeds for requested size `s = p.size` and for which the
strategy selected index `i` (block `b = blocks[i]`, a live block): if `b.size > s + 10`
the new block list is the old one with `b` replaced by a used block
`{b.start, s, owner p.id}` followed by a free ownerless block
`{b.start + s, b.size - s}`, both fields of which fit an `int`, and `block_count` grows
by one; if `b.size <= s + 10` the new block list is the old one with only block `i`
marked used and owned by `p.id`, its size unchanged, and `block_count` is unchanged.
The sum `s + 10` of the test fits an `int`. -/
theorem C8_split_threshold (m m' : MemoryManager) (p p' : Process) (i : Nat)
    (hfit : AllocateFits m p)
    (hsel : select_block m p.size = (i : Int))
    (hok : allocate_memory m p = (true, m', p')) :
    (liveBlocks m)[i]? = some (m.blocks i) ∧
    InInt (p.size + 10) ∧
    ((m.blocks i).size > p.size + 10 →
      m'.block_count = m.block_count + 1 ∧
      liveBlocks m' =
        (liveBlocks m).take i ++
          [⟨(m.blocks i).start_address, p.size, false, p.id⟩,
            ⟨(m.blocks i).start_address + p.size, (m.blocks i).size - p.size, true, -1⟩] ++
          (liveBlocks m).drop (i + 1) ∧
      InInt ((m.blocks i).start_address + p.size) ∧
      InInt ((m.blocks i).size - p.size)) ∧
    ((m.blocks i).size ≤ p.size + 10 →
      m'.block_count = m.block_count ∧
      liveBlocks m' =
        (liveBlocks m).set i { m.blocks i with is_free := false, process_id := p.id }) := by
  rcases allocate_memory_cases m p with ⟨h1, _⟩ | ⟨b, h1, h2, h3, h | h⟩
  · rw [h1] at hok
    simp at hok
  · have hbi : b = i := by
      rw [hsel] at h1
      omega
    subst hbi
    obtain ⟨f1, _, f3, f4⟩ := AllocateFits_chosen m p b hfit hsel h2 h3
    have hm : m' = (assign_block (split_block m p.size b) p b).2.1 := by
      rw [← h.2.2, hok]
    refine ⟨by rw [liveBlocks_getElem?, if_pos h2.1], f1, ?_, ?_⟩
    · intro hgt
      rw [hm]
      exact ⟨rfl, liveBlocks_split m p b h2.1, f4 hgt, f3⟩
    · intro hle
      omega
  · have hbi : b = i := by
      rw [hsel] at h1
      omega
    subst hbi
    obtain ⟨f1, _, _, _⟩ := AllocateFits_chosen m p b hfit hsel h2 h3
    have hm : m' = (assign_block m p b).2.1 := by
      rw [← h.2, hok]
    refine ⟨by rw [liveBlocks_getElem?, if_pos h2.1], f1, ?_, ?_⟩
    · intro hgt
      omega
    · intro _
      rw [hm]
      exact ⟨rfl, liveBlocks_assign m p b⟩

/-- A request of 40 against a free block of 48 keeps one block of 48; against a free
block of 60 it gives a used block of 40 followed by a free block of 20. -/
theorem C8_split_threshold_witness :
    (AllocateFits (initialize_memory_manager 48 .FIRST_FIT) ⟨1, 40, .PROCESS_NEW, -1⟩ ∧
      liveBlocks (allocate_memory (initialize_memory_manager 48 .FIRST_FIT)
        ⟨1, 40, .PROCESS_NEW, -1⟩).2.1 = [⟨0, 48, false, 1⟩]) ∧
    (AllocateFits (initialize_memory_manager 60 .FIRST_FIT) ⟨1, 40, .PROCESS_NEW, -1⟩ ∧
      liveBlocks (allocate_memory (initialize_memory_manager 60 .FIRST_FIT)
        ⟨1, 40, .PROCESS_NEW, -1⟩).2.1 = [⟨0, 40, false, 1⟩, ⟨40, 20, true, -1⟩]) := by
  constructor
  · have h := (C8_split_threshold (initialize_memory_manager 48 .FIRST_FIT)
      (allocate_memory (initialize_memory_manager 48 .FIRST_FIT) ⟨1, 40, .PROCESS_NEW, -1⟩).2.1
      ⟨1, 40, .PROCESS_NEW, -1⟩
      (allocate_memory (initialize_memory_manager 48 .FIRST_FIT) ⟨1, 40, .PROCESS_NEW, -1⟩).2.2
      0 (by decide) (by decide) rfl).2.2.2 (by decide)
    refine ⟨by decide, ?_⟩
    rw [h.2]
    decide
  · have h := (C8_split_threshold (initialize_memory_manager 60 .FIRST_FIT)
      (allocate_memory (initialize_memory_manager 60 .FIRST_FIT) ⟨1, 40, .PROCESS_NEW, -1⟩).2.1
      ⟨1, 40, .PROCESS_NEW, -1⟩
      (allocate_memory (initialize_memory_manager 60 .FIRST_FIT) ⟨1, 40, .PROCESS_NEW, -1⟩).2.2
      0 (by decide) (by decide) rfl).2.2.1 (by decide)
    refine ⟨by decide, ?_⟩
    rw [h.2.1]
    decide

/-- C15: for a call whose `int` arithmetic does not overflow (`AllocateFits`),
`allocate_memory` returns true exactly when the requested size is at most `free_size`,
the strategy returns a block index `i` (not `-1`), and either
`blocks[i].size <= size + 10` or `block_count < MAX_BLOCKS` (100).  On success the
process is Running with `block_index = i` (its id and size unchanged), block `i` is
used and owned by the process, and `free_size` has decreased by exactly the requested
size, to a value that fits an `int`. -/
theorem C15_allocation_succeeds_iff (m : MemoryManager) (p : Process)
    (hfit : AllocateFits m p) :
    ((allocate_memory m p).1 = true ↔
      (p.size ≤ m.free_size ∧
        ∃ i : Nat, select_block m p.size = (i : Int) ∧
          ((m.blocks i).size ≤ p.size + 10 ∨ m.block_count < MAX_BLOCKS))) ∧
    MAX_BLOCKS = 100 ∧
    ((allocate_memory m p).1 = true →
      ∀ i : Nat, select_block m p.size = (i : Int) →
        (allocate_memory m p).2.2 =
          { p with state := .PROCESS_RUNNING, block_index := (i : Int) } ∧
        ((allocate_memory m p).2.1.blocks i).is_free = false ∧
        ((allocate_memory m p).2.1.blocks i).process_id = p.id ∧
        (allocate_memory m p).2.1.free_size = m.free_size - p.size ∧
        InInt (m.free_size - p.size) ∧ InInt (p.size + 10)) := by
  refine ⟨?_, rfl, ?_⟩
  · rcases allocate_memory_cases m p with ⟨h1, h2⟩ | ⟨b, h1, _, h3, h | h⟩
    · rw [h1]
      constructor
      · intro hf
        simp at hf
      · rintro ⟨hle, i, hi, hor⟩
        exfalso
        rcases h2 with h2 | h2 | ⟨h2, h3⟩
        · omega
        · rw [hi] at h2
          omega
        · rw [hi, Int.toNat_ofNat] at h2
          omega
    · rw [h.2.2]
      constructor
      · intro _
        exact ⟨h3, b, h1, Or.inr h.2.1⟩
      · intro _
        rfl
    · rw [h.2]
      constructor
      · intro _
        exact ⟨h3, b, h1, Or.inl h.1⟩
      · intro _
        rfl
  · intro hok i hi
    rcases allocate_memory_cases m p with ⟨h1, _⟩ | ⟨b, h1, h2, h3, h | h⟩
    · rw [h1] at hok
      simp at hok
    · have hbi : b = i := by
        rw [hi] at h1
        omega
      subst hbi
      obtain ⟨f1, f2, _, _⟩ := AllocateFits_chosen m p b hfit hi h2 h3
      rw [h.2.2]
      refine ⟨rfl, ?_, ?_, rfl, f2, f1⟩
      · rw [assign_block_apply, if_pos rfl]
      · rw [assign_block_apply, if_pos rfl]
    · have hbi : b = i := by
        rw [hi] at h1
        omega
      subst hbi
      obtain ⟨f1, f2, _, _⟩ := AllocateFits_chosen m p b hfit hi h2 h3
      rw [h.2]
      refine ⟨rfl, ?_, ?_, rfl, f2, f1⟩
      · rw [assign_block_apply, if_pos rfl]
      · rw [assign_block_apply, if_pos rfl]

/-- On the strategy example a best-fit request of 30 KB overflows nowhere, succeeds
with block 2 and lowers `free_size` from 330 to 300. -/
theorem C15_allocation_succeeds_iff_witness :
    AllocateFits (strategyExample .BEST_FIT) ⟨7, 30, .PROCESS_NEW, -1⟩ ∧
    (allocate_memory (strategyExample .BEST_FIT) ⟨7, 30, .PROCESS_NEW, -1⟩).2.2 =
        ⟨7, 30, .PROCESS_RUNNING, 2⟩ ∧
    ((allocate_memory (strategyExample .BEST_FIT)
        ⟨7, 30, .PROCESS_NEW, -1⟩).2.1.blocks 2).is_free = false ∧
    ((allocate_memory (strategyExample .BEST_FIT)
        ⟨7, 30, .PROCESS_NEW, -1⟩).2.1.blocks 2).process_id = 7 ∧
    (allocate_memory (strategyExample .BEST_FIT) ⟨7, 30, .PROCESS_NEW, -1⟩).2.1.free_size =
      330 - 30 :=
  ⟨by decide,
    ((C15_allocation_succeeds_iff (strategyExample .BEST_FIT) ⟨7, 30, .PROCESS_NEW, -1⟩
      (by decide)).2.2 (by decide) 2 (by decide)).1,
    ((C15_allocation_succeeds_iff (strategyExample .BEST_FIT) ⟨7, 30, .PROCESS_NEW, -1⟩
      (by decide)).2.2 (by decide) 2 (by decide)).2.1,
    ((C15_allocation_succeeds_iff (strategyExample .BEST_FIT) ⟨7, 30, .PROCESS_NEW, -1⟩
      (by decide)).2.2 (by decide) 2 (by decide)).2.2.1,
    ((C15_allocation_succeeds_iff (strategyExample .BEST_FIT) ⟨7, 30, .PROCESS_NEW, -1⟩
      (by decide)).2.2 (by decide) 2 (by decide)).2.2.2.1⟩

theorem MetricsFit_sums (m : MemoryManager) (hfit : MetricsFit m) :
    InInt (freeBlockSum m) ∧ InInt (freeCount m) := by
  obtain ⟨h1, _, h3, _⟩ := hfit
  constructor
  · have h := h3 m.block_count (le_refl _)
    have hlen : (liveBlocks m).length ≤ m.block_count := by rw [liveBlocks_length]
    rw [(List.take_eq_self_iff _).mpr hlen] at h
    exact h
  · have hlen : ((liveBlocks m).filter (fun b => b.is_free)).length ≤ m.block_count := by
      have := List.length_filter_le (fun b : MemoryBlock => b.is_free) (liveBlocks m)
      rw [liveBlocks_length] at this
      exact this
    have h100 : m.block_count ≤ 100 := h1
    unfold freeCount InInt INT_MIN INT_MAX
    constructor <;> omega

/-- C16: on a manager for which the `int` arithmetic of the function does not overflow
(`MetricsFit`), `update_fragmentation_metrics` returns the manager it was given, keeps
the other statistics, and sets `external_fragmentation` to the number of free blocks,
`avg_fragment_size` to the double quotient of the sum of the free block sizes by the
number of free blocks (0 when there is none), and `fragmentation_percentage` to the
double value of `(free_size - largest) / free_size * 100` when `free_size > 0` and
there are at least two free blocks, and to 0 otherwise; `largest` is the largest free
block size (no free block is larger, and it is the size of a free block unless it is
0); the sum and the number of the free blocks fit an `int`.  With free blocks of sizes
10, 10, 80 and `free_size` 100 the percentage is exactly 20. -/
theorem C16_fragmentation_metrics :
    (∀ (m : MemoryManager) (stats : Statistics), MetricsFit m →
      (update_fragmentation_metrics m stats).1 = m ∧
      (update_fragmentation_metrics m stats).2.external_fragmentation = freeCount m ∧
      (update_fragmentation_metrics m stats).2.avg_fragment_size =
        (if 0 < freeCount m then
          doubleDiv (intToDouble (freeBlockSum m)) (intToDouble (freeCount m))
        else 0) ∧
      (update_fragmentation_metrics m stats).2.fragmentation_percentage =
        (if 0 < m.free_size ∧ 2 ≤ freeCount m then
          doubleMul
            (doubleDiv (intToDouble (m.free_size - largestFree m)) (intToDouble m.free_size))
            100
        else 0) ∧
      (∀ b ∈ (liveBlocks m).filter (fun b => b.is_free), b.size ≤ largestFree m) ∧
      (largestFree m = 0 ∨
        ∃ b ∈ (liveBlocks m).filter (fun b => b.is_free), b.size = largestFree m) ∧
      InInt (freeBlockSum m) ∧ InInt (freeCount m) ∧
      (update_fragmentation_metrics m stats).2.allocation_attempts =
        stats.allocation_attempts ∧
      (update_fragmentation_metrics m stats).2.successful_allocations =
        stats.successful_allocations ∧
      (update_fragmentation_metrics m stats).2.failed_allocations =
        stats.failed_allocations ∧
      (update_fragmentation_metrics m stats).2.avg_utilization = stats.avg_utilization ∧
      (update_fragmentation_metrics m stats).2.peak_utilization = stats.peak_utilization) ∧
    (MetricsFit fragmentationExample ∧
      ((liveBlocks fragmentationExample).filter (fun b => b.is_free)).map (fun b => b.size) =
        [10, 10, 80] ∧
      fragmentationExample.free_size = 100 ∧
      ∀ stats : Statistics,
        (update_fragmentation_metrics fragmentationExample stats).2.fragmentation_percentage =
          20) := by
  refine ⟨?_, by decide, by decide, rfl, ?_⟩
  · intro m stats hfit
    refine ⟨rfl, ?_, ?_, percentage_formula m stats, ?_, ?_, (MetricsFit_sums m hfit).1,
      (MetricsFit_sums m hfit).2, rfl, rfl, rfl, rfl, rfl⟩
    · simp only [update_fragmentation_metrics, count_free_loop_eq]
    · simp only [update_fragmentation_metrics, count_free_loop_eq]
    · intro b hb
      exact (foldr_max_spec _).1 b.size (List.mem_map_of_mem _ hb)
    · rcases (foldr_max_spec (((liveBlocks m).filter (fun b => b.is_free)).map
        (fun b => b.size))).2 with h | h
      · exact Or.inl h
      · obtain ⟨b, hb, hsize⟩ := List.mem_map.mp h
        exact Or.inr ⟨b, hb, hsize⟩
  · intro stats
    rw [percentage_formula]
    have h1 : fragmentationExample.free_size = 100 := rfl
    have h2 : freeCount fragmentationExample = 3 := by decide
    have h3 : largestFree fragmentationExample = 80 := by decide
    rw [h1, h2, h3, if_pos (by omega)]
    simp only [doubleMul, doubleDiv, intToDouble]
    norm_num
    rw [roundDouble_twenty, roundDouble_hundred, roundDouble_fifth,
      roundDouble_fifth_times_hundred]

/-- The fragmentation example overflows nowhere, and its two counters are 3 free
blocks with a total of 100 KB. -/
theorem C16_fragmentation_metrics_witness :
    MetricsFit fragmentationExample ∧
    (update_fragmentation_metrics fragmentationExample
      ⟨0, 0, 0, 0, 0, 0, 0, 0⟩).2.external_fragmentation = freeCount fragmentationExample ∧
    freeCount fragmentationExample = 3 ∧ freeBlockSum fragmentationExample = 100 :=
  ⟨by decide,
    (C16_fragmentation_metrics.1 fragmentationExample ⟨0, 0, 0, 0, 0, 0, 0, 0⟩
      (by decide)).2.1,
    by decide, by decide⟩

/-- An option that holds a value is `some` of its `getD`. -/
theorem some_getD_of_isSome {α : Type} (o : Option α) (d : α) (h : o.isSome = true) :
    o = some (o.getD d) := by
  cases o with
  | none => simp at h
  | some x => rfl

/-- In a tiling every live block lies inside `[0, total_size]`. -/
theorem Tiles_bounds (m : MemoryManager) (ht : Tiles m) :
    ∀ i, i < m.block_count →
      0 ≤ (m.blocks i).start_address ∧ 0 < (m.blocks i).size ∧
        (m.blocks i).start_address + (m.blocks i).size ≤ m.total_size := by
  obtain ⟨h0, hstart, hpos, hadj, hlast⟩ := ht
  have hlo : ∀ i, i < m.block_count → 0 ≤ (m.blocks i).start_address := by
    intro i
    induction i with
    | zero =>
      intro _
      rw [hstart]
    | succ i ih =>
      intro hi
      have a1 := ih (by omega)
      have a2 := hadj i hi
      have a3 := hpos i (by omega)
      omega
  have hhi : ∀ d i, i + d + 1 = m.block_count →
      (m.blocks i).start_address + (m.blocks i).size ≤ m.total_size := by
    intro d
    induction d with
    | zero =>
      intro i hi
      have h1 : m.block_count - 1 = i := by omega
      rw [h1] at hlast
      omega
    | succ d ih =>
      intro i hi
      have a1 := ih (i + 1) (by omega)
      have a2 := hadj i (by omega)
      have a3 := hpos (i + 1) (by omega)
      omega
  intro i hi
  exact ⟨hlo i hi, hpos i hi, hhi (m.block_count - i - 1) i (by omega)⟩

/-- On a tiled memory of capacity at most `INT_MAX - 10` whose `free_size` fits an
`int`, no `int` expression of an `allocate_memory` call for a positive size
overflows. -/
theorem AllocateFits_of_Tiles (m : MemoryManager) (p : Process) (ht : Tiles m)
    (hmax : m.total_size + 10 ≤ INT_MAX) (hsize : 0 < p.size)
    (hfree : m.free_size ≤ INT_MAX) : AllocateFits m p := by
  have hb := Tiles_bounds m ht
  unfold INT_MAX at hmax hfree
  constructor
  · intro j hj _ hge
    obtain ⟨a1, a2, a3⟩ := hb j hj
    unfold InInt INT_MIN INT_MAX
    constructor <;> omega
  · intro hle hne
    rcases select_block_spec m p.size with h | ⟨b, h1, h2⟩
    · exact absurd h hne
    · obtain ⟨a1, a2, a3⟩ := hb b h2.1
      have a4 := h2.2.2
      rw [h1, Int.toNat_ofNat]
      unfold InInt INT_MIN INT_MAX
      refine ⟨⟨by omega, by omega⟩, ⟨by omega, by omega⟩, fun _ => ⟨by omega, by omega⟩⟩

/-- `allocate_memory` leaves `free_size` as it is or, when the request is at most
`free_size`, lowers it by the request; it never lowers `block_count` and never raises
it above `MAX_BLOCKS`. -/
theorem allocate_counters (m : MemoryManager) (p : Process) :
    ((allocate_memory m p).2.1.free_size = m.free_size ∨
      (p.size ≤ m.free_size ∧
        (allocate_memory m p).2.1.free_size = m.free_size - p.size)) ∧
    ((allocate_memory m p).2.1.block_count = m.block_count ∨
      (m.block_count < MAX_BLOCKS ∧
        (allocate_memory m p).2.1.block_count = m.block_count + 1)) := by
  rcases allocate_memory_cases m p with ⟨h1, _⟩ | ⟨b, _, _, h3, h | h⟩
  · rw [h1]
    exact ⟨Or.inl rfl, Or.inl rfl⟩
  · rw [h.2.2]
    exact ⟨Or.inr ⟨h3, rfl⟩, Or.inr ⟨h.2.1, rfl⟩⟩
  · rw [h.2]
    exact ⟨Or.inr ⟨h3, rfl⟩, Or.inl rfl⟩

theorem coalesce_restart_count (fuel : Nat) :
    ∀ (m m' : MemoryManager) (ps ps' : List Process) (k : Nat),
      coalesce_restart fuel m ps k = some (m', ps') → m'.block_count ≤ m.block_count := by
  induction fuel with
  | zero =>
    intro m m' ps ps' k hrun
    simp [coalesce_restart] at hrun
  | succ fuel ih =>
    intro m m' ps ps' k hrun
    rw [coalesce_restart] at hrun
    cases hscan : find_adjacent_free m (m.block_count - 1) 0 with
    | none =>
      rw [hscan] at hrun
      simp only [Option.some.injEq, Prod.mk.injEq] at hrun
      rw [← hrun.1]
    | some i =>
      rw [hscan] at hrun
      have h := ih (merge_blocks m i) m' _ ps' k hrun
      have hcount : (merge_blocks m i).block_count = m.block_count - 1 := rfl
      omega

/-- What `deallocate_memory` does to the two counters: nothing when the process holds
no block, else it adds the size of the block to `free_size`; `block_count` is never
raised. -/
theorem deallocate_counters (fuel : Nat) (m m' : MemoryManager) (ps ps' : List Process)
    (k : Nat) (hrun : deallocate_memory fuel m ps k = some (m', ps')) :
    m'.block_count ≤ m.block_count ∧
    ∃ p, ps[k]? = some p ∧
      ((p.block_index = -1 ∧ m'.free_size = m.free_size) ∨
        (p.block_index ≠ -1 ∧
          m'.free_size = m.free_size + (m.blocks p.block_index.toNat).size)) := by
  unfold deallocate_memory at hrun
  cases hp : ps[k]? with
  | none =>
    rw [hp] at hrun
    simp at hrun
  | some p =>
    rw [hp] at hrun
    simp only at hrun
    split_ifs at hrun with h1 h2
    · simp only [Option.some.injEq, Prod.mk.injEq] at hrun
      rw [← hrun.1]
      exact ⟨le_refl _, p, rfl, Or.inl ⟨h1, rfl⟩⟩
    · have hc := coalesce_restart_count fuel _ m' _ ps' k hrun
      have hs := (coalesce_restart_sums fuel _ m' _ ps' k hrun).1
      exact ⟨hc, p, rfl, Or.inr ⟨h1, hs⟩⟩

theorem coalesce_loop_counters (fuel : Nat) :
    ∀ (m m' : MemoryManager) (i : Nat) (merged merged' : Bool),
      coalesce_loop fuel m i merged = some (merged', m') →
      m'.free_size = m.free_size ∧ m'.block_count ≤ m.block_count := by
  induction fuel with
  | zero =>
    intro m m' i merged merged' hrun
    simp [coalesce_loop] at hrun
  | succ fuel ih =>
    intro m m' i merged merged' hrun
    rw [coalesce_loop] at hrun
    split_ifs at hrun with h1 h2
    · have h := ih (merge_blocks m i) m' i true merged' hrun
      have hcount : (merge_blocks m i).block_count = m.block_count - 1 := rfl
      have hfree : (merge_blocks m i).free_size = m.free_size := rfl
      exact ⟨by rw [h.1, hfree], by omega⟩
    · exact ih m m' (i + 1) merged merged' hrun
    · simp only [Option.some.injEq, Prod.mk.injEq] at hrun
      rw [← hrun.2]
      exact ⟨rfl, le_refl _⟩

theorem coalesce_memory_counters (fuel : Nat) (m m' : MemoryManager) (ps ps' : List Process)
    (merged : Bool) (hrun : coalesce_memory fuel m ps = some (merged, m', ps')) :
    m'.free_size = m.free_size ∧ m'.block_count ≤ m.block_count := by
  unfold coalesce_memory at hrun
  cases hloop : coalesce_loop fuel m 0 false with
  | none =>
    rw [hloop] at hrun
    simp at hrun
  | some r =>
    rw [hloop] at hrun
    simp only [Option.some.injEq, Prod.mk.injEq] at hrun
    have hr : r = (merged, m') := by
      rw [← hrun.1, ← hrun.2.1]
    rw [hr] at hloop
    exact coalesce_loop_counters fuel m m' 0 false merged hloop

/-- Along a run of `Reachable` from a manager of positive capacity at most
`INT_MAX - 10` the blocks tile the memory, `total_size` is kept, `free_size` fits an
`int` and at most `MAX_BLOCKS` blocks are in use. -/
theorem Reachable_bounds (total_size : Int) (m : MemoryManager) (ps : List Process)
    (hcap : 0 < total_size) (hmax : total_size + 10 ≤ INT_MAX)
    (hreach : Reachable total_size m ps) :
    Tiles m ∧ m.total_size = total_size ∧ InInt m.free_size ∧
      m.block_count ≤ MAX_BLOCKS := by
  induction hreach with
  | init strategy ps =>
    refine ⟨Tiles_fresh total_size strategy hcap, rfl, ?_, ?_⟩
    · show InInt total_size
      unfold InInt INT_MIN
      unfold INT_MAX at hmax ⊢
      constructor <;> omega
    · show 1 ≤ MAX_BLOCKS
      decide
  | @allocate m0 _ k p _ _ hsize ih =>
    have h := Tiles_allocate m0 p hsize ih.1
    have hc := allocate_counters m0 p
    have hf := ih.2.2.1
    have hcount := ih.2.2.2
    unfold InInt at hf ⊢
    refine ⟨h.1, by rw [h.2, ih.2.1], ?_, ?_⟩
    · rcases hc.1 with e | ⟨e1, e2⟩
      · rw [e]
        exact hf
      · rw [e2]
        unfold INT_MIN at hf ⊢
        constructor <;> omega
    · rcases hc.2 with e | ⟨e1, e2⟩
      · rw [e]
        exact hcount
      · rw [e2]
        omega
  | @allocate_new m0 _ p _ hsize ih =>
    have h := Tiles_allocate m0 p hsize ih.1
    have hc := allocate_counters m0 p
    have hf := ih.2.2.1
    have hcount := ih.2.2.2
    unfold InInt at hf ⊢
    refine ⟨h.1, by rw [h.2, ih.2.1], ?_, ?_⟩
    · rcases hc.1 with e | ⟨e1, e2⟩
      · rw [e]
        exact hf
      · rw [e2]
        unfold INT_MIN at hf ⊢
        constructor <;> omega
    · rcases hc.2 with e | ⟨e1, e2⟩
      · rw [e]
        exact hcount
      · rw [e2]
        omega
  | @deallocate m0 m1 ps0 ps1 fuel k _ hfits hrun ih =>
    have h := Tiles_deallocate fuel m0 m1 ps0 ps1 k hrun ih.1
    obtain ⟨hc, p, hp, hcase⟩ := deallocate_counters fuel m0 m1 ps0 ps1 k hrun
    refine ⟨h.1, by rw [h.2, ih.2.1], ?_, le_trans hc ih.2.2.2⟩
    rcases hcase with ⟨_, e⟩ | ⟨hne, e⟩
    · rw [e]
      exact ih.2.2.1
    · rw [e]
      exact hfits p hp hne
  | @coalesce m0 m1 ps0 ps1 fuel merged _ hrun ih =>
    have h := Tiles_coalesce_memory fuel m0 m1 ps0 ps1 merged hrun ih.1
    have hc := coalesce_memory_counters fuel m0 m1 ps0 ps1 merged hrun
    refine ⟨h.1, by rw [h.2, ih.2.1], ?_, le_trans hc.2 ih.2.2.2⟩
    rw [hc.1]
    exact ih.2.2.1

/-- C4: in every state reachable from an initialized manager of positive capacity
`total_size`, at most `INT_MAX - 10`, by calls of `allocate_memory` (positive sizes),
`deallocate_memory` (whose addition to `free_size` fits an `int`) and
`coalesce_memory`, the live blocks tile `[0, total_size)`: block 0 starts at 0, every
block has positive size, each block's start plus size is the next block's start, and
the last block ends at `total_size`, which is still the manager's `total_size`.  In
every such state `free_size` fits an `int`, at most `MAX_BLOCKS` blocks are in use, and
no `int` expression of a further `allocate_memory` call for a positive size
overflows, so that the exact arithmetic of the model is the `int` arithmetic of the
code along the whole run. -/
theorem C4_reachable_blocks_tile_memory (total_size : Int) (m : MemoryManager)
    (ps : List Process) (hcap : 0 < total_size) (hmax : total_size + 10 ≤ INT_MAX)
    (hreach : Reachable total_size m ps) :
    Tiles m ∧ m.total_size = total_size ∧ InInt m.free_size ∧
    m.block_count ≤ MAX_BLOCKS ∧ ∀ p : Process, 0 < p.size → AllocateFits m p := by
  have main := Reachable_bounds total_size m ps hcap hmax hreach
  refine ⟨main.1, main.2.1, main.2.2.1, main.2.2.2, ?_⟩
  intro p hsize
  exact AllocateFits_of_Tiles m p main.1 (by rw [main.2.1]; exact hmax) hsize main.2.2.1.2

/-- After the allocation of 40 KB in a fresh 100 KB memory, which splits the block, and
after the deallocation of that process, which merges the two blocks again (the
addition 60 + 40 to `free_size` fits an `int`), the blocks tile the memory. -/
theorem C4_reachable_blocks_tile_memory_witness :
    (0 : Int) < 100 ∧ (100 : Int) + 10 ≤ INT_MAX ∧
    Tiles (allocate_memory (initialize_memory_manager 100 .BEST_FIT)
      ⟨1, 40, .PROCESS_NEW, -1⟩).2.1 ∧
    Tiles ((deallocate_memory 3
      (allocate_memory (initialize_memory_manager 100 .BEST_FIT)
        ⟨1, 40, .PROCESS_NEW, -1⟩).2.1
      [(allocate_memory (initialize_memory_manager 100 .BEST_FIT)
        ⟨1, 40, .PROCESS_NEW, -1⟩).2.2] 0).getD
      (initialize_memory_manager 100 .BEST_FIT, [])).1 :=
  ⟨by decide, by decide,
    (C4_reachable_blocks_tile_memory 100 _ _ (by decide) (by decide)
      (Reachable.allocate 0 ⟨1, 40, .PROCESS_NEW, -1⟩
        (Reachable.init .BEST_FIT [⟨1, 40, .PROCESS_NEW, -1⟩]) rfl (by decide))).1,
    (C4_reachable_blocks_tile_memory 100 _ _ (by decide) (by decide)
      (Reachable.deallocate 3 0
        (Reachable.allocate 0 ⟨1, 40, .PROCESS_NEW, -1⟩
          (Reachable.init .BEST_FIT [⟨1, 40, .PROCESS_NEW, -1⟩]) rfl (by decide))
        (fun q hq _ => by cases hq; decide)
        (some_getD_of_isSome _ (initialize_memory_manager 100 .BEST_FIT, []) (by decide)))).1⟩

/-- A run of `ReachableValid` is a run of `Reachable`. -/
theorem ReachableValid_reachable (total_size : Int) (m : MemoryManager) (ps : List Process)
    (hreach : ReachableValid total_size m ps) : Reachable total_size m ps := by
  induction hreach with
  | init strategy ps => exact Reachable.init strategy ps
  | allocate k p _ hp hsize ih => exact Reachable.allocate k p ih hp hsize
  | allocate_new p _ hsize ih => exact Reachable.allocate_new p ih hsize
  | deallocate fuel k p _ hp _ hfits hrun ih =>
    refine Reachable.deallocate fuel k ih ?_ hrun
    intro q hq _
    rw [hp] at hq
    cases hq
    exact hfits

theorem slack_reachableValid (total_size : Int) (m : MemoryManager) (ps : List Process)
    (hcap : 0 < total_size) (hmax : total_size + 10 ≤ INT_MAX)
    (hreach : ReachableValid total_size m ps) :
    freeBlockSum m ≤ m.free_size := by
  induction hreach with
  | init strategy ps =>
    have h : freeBlockSum (initialize_memory_manager total_size strategy) = total_size := by
      simp [freeBlockSum, liveBlocks, initialize_memory_manager, write, List.range_succ]
    rw [h]
    exact le_refl _
  | @allocate m0 _ k p _ _ _ ih =>
    have := slack_allocate m0 p
    omega
  | @allocate_new m0 _ p _ _ ih =>
    have := slack_allocate m0 p
    omega
  | deallocate fuel k p hprev hp hidx _ hrun ih =>
    have ht := (Reachable_bounds total_size _ _ hcap hmax
      (ReachableValid_reachable total_size _ _ hprev)).1
    have := slack_deallocate fuel _ _ _ _ k p hp hidx
      (fun i hi => le_of_lt (ht.2.2.1 i hi)) hrun
    omega

/-- With no negative size in the list, the sum of the free sizes of a prefix lies
between 0 and the sum over the whole list. -/
theorem freeSum_take_bounds (l : List MemoryBlock) (h : ∀ b ∈ l, 0 ≤ b.size) :
    ∀ n, 0 ≤ freeSum (l.take n) ∧ freeSum (l.take n) ≤ freeSum l := by
  induction l with
  | nil =>
    intro n
    simp [freeSum]
  | cons b l ih =>
    intro n
    have hb : 0 ≤ b.size := h b (List.mem_cons_self _ _)
    have hl := ih (fun x hx => h x (List.mem_cons_of_mem _ hx))
    cases n with
    | zero =>
      have h0 := hl 0
      rw [List.take_zero] at h0 ⊢
      rw [freeSum_cons]
      have e : freeSum ([] : List MemoryBlock) = 0 := rfl
      rw [e] at h0 ⊢
      split_ifs <;> omega
    | succ n =>
      have hn := hl n
      rw [List.take_succ_cons, freeSum_cons, freeSum_cons]
      split_ifs <;> omega

/-- On a memory whose blocks have no negative size and whose `free_size` fits an `int`
and is at least the sum of the free sizes, with at most `MAX_BLOCKS` blocks, no `int`
expression of `update_fragmentation_metrics` overflows. -/
theorem MetricsFit_of_slack (m : MemoryManager)
    (hsize : ∀ i, i < m.block_count → 0 ≤ (m.blocks i).size)
    (hcount : m.block_count ≤ MAX_BLOCKS) (hfree : InInt m.free_size)
    (hslack : freeBlockSum m ≤ m.free_size) : MetricsFit m := by
  have hmem : ∀ b ∈ liveBlocks m, 0 ≤ b.size := by
    intro b hb
    obtain ⟨i, hi, hib⟩ := List.mem_map.mp hb
    rw [← hib]
    exact hsize i (List.mem_range.mp hi)
  obtain ⟨l1, l2⟩ := largestFree_bounds m hsize
  rw [freeBlockSum_eq] at hslack l2
  refine ⟨hcount, hfree, ?_, ?_⟩
  · intro n _
    obtain ⟨a1, a2⟩ := freeSum_take_bounds (liveBlocks m) hmem n
    unfold InInt INT_MIN at hfree ⊢
    constructor <;> omega
  · intro _
    unfold InInt INT_MIN at hfree ⊢
    constructor <;> omega

/-- C18: in every state reachable from an initialized manager of positive capacity, at
most `INT_MAX - 10`, by calls of `allocate_memory` (positive sizes) and of
`deallocate_memory` (valid block indices, the addition `free_size += blocks[index].size`
fitting an `int`), `free_size` fits an `int` and is at least the sum of the free block
sizes; the difference `free_size - (sum of free block sizes)` is not lowered by a
further such call of `allocate_memory`, none of whose `int` expressions overflows, or
of `deallocate_memory`; and no `int` expression of `update_fragmentation_metrics`
overflows there, the `fragmentation_percentage` it computes lying between 0 and 100. -/
theorem C18_free_size_slack_never_shrinks (total_size : Int) (m : MemoryManager)
    (ps : List Process) (hcap : 0 < total_size) (hmax : total_size + 10 ≤ INT_MAX)
    (hreach : ReachableValid total_size m ps) :
    freeBlockSum m ≤ m.free_size ∧ InInt m.free_size ∧
    (∀ p : Process, 0 < p.size →
      AllocateFits m p ∧
      m.free_size - freeBlockSum m ≤
        (allocate_memory m p).2.1.free_size - freeBlockSum (allocate_memory m p).2.1) ∧
    (∀ (fuel k : Nat) (p : Process) (m' : MemoryManager) (ps' : List Process),
      ps[k]? = some p →
      (0 ≤ p.block_index ∧ p.block_index < (m.block_count : Int)) →
      InInt (m.free_size + (m.blocks p.block_index.toNat).size) →
      deallocate_memory fuel m ps k = some (m', ps') →
      m'.free_size = m.free_size + (m.blocks p.block_index.toNat).size ∧
      m.free_size - freeBlockSum m ≤ m'.free_size - freeBlockSum m') ∧
    (∀ stats : Statistics,
      MetricsFit m ∧
      0 ≤ (update_fragmentation_metrics m stats).2.fragmentation_percentage ∧
      (update_fragmentation_metrics m stats).2.fragmentation_percentage ≤ 100) := by
  have hb := Reachable_bounds total_size m ps hcap hmax
    (ReachableValid_reachable total_size m ps hreach)
  have ht := hb.1
  have hsize : ∀ i, i < m.block_count → 0 ≤ (m.blocks i).size :=
    fun i hi => le_of_lt (ht.2.2.1 i hi)
  have hslack := slack_reachableValid total_size m ps hcap hmax hreach
  refine ⟨hslack, hb.2.2.1, ?_, ?_, ?_⟩
  · intro p hp
    exact ⟨AllocateFits_of_Tiles m p ht (by rw [hb.2.1]; exact hmax) hp hb.2.2.1.2,
      slack_allocate m p⟩
  · intro fuel k p m' ps' hp hidx _ hrun
    refine ⟨?_, slack_deallocate fuel m m' ps ps' k p hp hidx hsize hrun⟩
    obtain ⟨_, q, hq, hcase⟩ := deallocate_counters fuel m m' ps ps' k hrun
    rw [hp] at hq
    cases hq
    rcases hcase with ⟨e, _⟩ | ⟨_, e⟩
    · omega
    · exact e
  · intro stats
    refine ⟨MetricsFit_of_slack m hsize hb.2.2.2 hb.2.2.1 hslack, ?_⟩
    rw [percentage_formula]
    obtain ⟨l1, l2⟩ := largestFree_bounds m hsize
    split_ifs with hc
    · exact percentage_bounds _ _ (by omega) (by omega) hc.1
    · exact ⟨le_refl _, by norm_num⟩

/-- After a 40 KB allocation in a fresh 48 KB memory `free_size` is 8 while no block is
free; the deallocation of that process adds 48 to it, which fits an `int`, and in the
state it leaves `free_size` (56) is still at least the sum of the free block sizes
(48). -/
theorem C18_free_size_slack_never_shrinks_witness :
    (0 : Int) < 48 ∧ (48 : Int) + 10 ≤ INT_MAX ∧
    InInt ((allocate_memory driftStart.1 ⟨1, 40, .PROCESS_NEW, -1⟩).2.1.free_size +
      ((allocate_memory driftStart.1 ⟨1, 40, .PROCESS_NEW, -1⟩).2.1.blocks 0).size) ∧
    freeBlockSum ((deallocate_memory 2
        (allocate_memory driftStart.1 ⟨1, 40, .PROCESS_NEW, -1⟩).2.1
        [(allocate_memory driftStart.1 ⟨1, 40, .PROCESS_NEW, -1⟩).2.2] 0).getD driftStart).1 ≤
      ((deallocate_memory 2
        (allocate_memory driftStart.1 ⟨1, 40, .PROCESS_NEW, -1⟩).2.1
        [(allocate_memory driftStart.1 ⟨1, 40, .PROCESS_NEW, -1⟩).2.2] 0).getD
          driftStart).1.free_size :=
  ⟨by decide, by decide, by decide,
    (C18_free_size_slack_never_shrinks 48 _ _ (by decide) (by decide)
      (ReachableValid.deallocate 2 0 ⟨1, 40, .PROCESS_RUNNING, 0⟩
        (ReachableValid.allocate 0 ⟨1, 40, .PROCESS_NEW, -1⟩
          (ReachableValid.init .FIRST_FIT [⟨1, 40, .PROCESS_NEW, -1⟩]) rfl (by decide))
        (by decide) (by decide) (by decide)
        (some_getD_of_isSome _ driftStart (by decide)))).1⟩

end MemorySimulation
